import Mathlib

/-
Verification development for the one-billion-row-challenge aggregator
(src/src/main.rs).  The Rust program is shallowly embedded: byte buffers
become `List Nat` (each element a byte value), `i32`/`u32` arithmetic is
modelled on `Int`/`Nat` with explicit two's-complement wrapping where the
source can overflow, panics and `anyhow` errors become `none`, and the
`FxHashMap` registries become association lists (the final output is sorted
by name, so the unspecified hash iteration order is irrelevant and is
canonicalised by the sort).
-/

set_option maxHeartbeats 1000000

/-- `PARALLELISM` constant from main.rs. -/
def PARALLELISM : Nat := 8

/-- `BUFFER_SIZE` constant from main.rs (128 * 1024 * 1024). -/
def BUFFER_SIZE : Nat := 134217728

/-- Two's-complement wrap of an unbounded integer into the `i32` range,
modelling Rust release-mode overflow semantics. -/
def wrap32 (x : Int) : Int := (x + 2147483648) % 4294967296 - 2147483648

/-- Rust `x as u8` on an `i32` value: the low byte, as a `Nat`. -/
def asU8 (x : Int) : Nat := (x % 256).toNat

/-- Rust `u32 as i32` (two's-complement reinterpretation). -/
def i32OfU32 (n : Nat) : Int :=
  if n < 2147483648 then (n : Int) else (n : Int) - 4294967296

/-- The `Aggregation` struct from main.rs: per-group min/max/sum (i32
values, held as `Int`) and count (u32 value, held as `Nat`). -/
structure Aggregation where
  min : Int
  max : Int
  sum : Int
  count : Nat
deriving DecidableEq, Repr

/-- `Aggregation::new()`: sentinel extrema `i32::MAX` / `i32::MIN`. -/
def Aggregation.new : Aggregation :=
  { min := 2147483647, max := -2147483648, sum := 0, count := 0 }

/-- `Aggregation::update`: fold one temperature into the record.  The i32
sum and u32 count wrap on overflow. -/
def Aggregation.update (a : Aggregation) (value : Int) : Aggregation :=
  { min := Min.min a.min value
    max := Max.max a.max value
    sum := wrap32 (a.sum + value)
    count := (a.count + 1) % 4294967296 }

/-- `Aggregation::merge`: element-wise min/max, wrapping sums of sum and
count. -/
def Aggregation.merge (a b : Aggregation) : Aggregation :=
  { min := Min.min a.min b.min
    max := Max.max a.max b.max
    sum := wrap32 (a.sum + b.sum)
    count := (a.count + b.count) % 4294967296 }

/-- `Aggregation::mean`: `self.sum * 10 / self.count as i32` in i32
arithmetic (the product wraps on overflow, division truncates toward
zero), then round-half-up on the remainder digit.  Rust would abort on a
zero divisor; `Int.tdiv _ 0 = 0` stands in for that unreachable case,
which is excluded separately (see the count-positivity claim). -/
def Aggregation.mean (a : Aggregation) : Int :=
  let mean10 := (wrap32 (a.sum * 10)).tdiv (i32OfU32 a.count)
  let remainder := mean10.tmod 10
  if remainder ≥ 5 then mean10.tdiv 10 + 1 else mean10.tdiv 10

/-- The tenths value `(tens - b'0')*100 + (ones - b'0')*10 + (decimal - b'0')`
computed by `parse_line` (i32 arithmetic; bytes are below 256, so no
overflow is possible here). -/
def parseVal (tens ones decimal : Nat) : Int :=
  ((tens : Int) - 48) * 100 + ((ones : Int) - 48) * 10 + ((decimal : Int) - 48)

/-- The slice-pattern match of `parse_line`, expressed on the reversed
byte list (the Rust patterns anchor at the right end of the slice).  Arms
are tried in source order; byte 59 is `;`, 45 is `-`, 46 is `.`.  The
returned name is the unmatched prefix, and `none` models the
`panic!("Invalid line format ...")` arm. -/
def parseRev : List Nat → Option (List Nat × Int)
  | d :: 46 :: o :: t :: 45 :: 59 :: rn => some (rn.reverse, -parseVal t o d)
  | d :: 46 :: o :: 45 :: 59 :: rn => some (rn.reverse, -parseVal 48 o d)
  | d :: 46 :: o :: t :: 59 :: rn => some (rn.reverse, parseVal t o d)
  | d :: 46 :: o :: 59 :: rn => some (rn.reverse, parseVal 48 o d)
  | _ => none

/-- `parse_line` from main.rs. -/
def parse_line (line : List Nat) : Option (List Nat × Int) :=
  parseRev line.reverse

/-- A registry (`FxHashMap<Vec<u8>, Aggregation>`) as an association
list; new names are appended at the end. -/
abbrev Registry := List (List Nat × Aggregation)

/-- `registry.get_mut(name)` (read-only part): first entry with this key. -/
def regGet : Registry → List Nat → Option Aggregation
  | [], _ => none
  | p :: rest, name => if p.1 = name then some p.2 else regGet rest name

/-- `process_line`'s registry effect: update the existing record in place,
or insert `Aggregation::new()` updated once. -/
def regUpd : Registry → List Nat → Int → Registry
  | [], name, v => [(name, Aggregation.new.update v)]
  | p :: rest, name, v =>
      if p.1 = name then (p.1, p.2.update v) :: rest
      else p :: regUpd rest name v

/-- `process_line` from main.rs; `none` models the parse panic. -/
def process_line (reg : Registry) (line : List Nat) : Option Registry :=
  (parse_line line).map fun nv => regUpd reg nv.1 nv.2

/-- Process a list of lines in order (the worker loop body). -/
def processLines : Registry → List (List Nat) → Option Registry
  | reg, [] => some reg
  | reg, l :: ls =>
      match process_line reg l with
      | none => none
      | some reg' => processLines reg' ls

/-- Split a byte region into newline-delimited segments, exactly as the
worker's `memchr_iter(b'\n', chunk).chain([chunk.len()])` loop does: a
trailing newline yields a final empty segment, and an empty chunk yields
one empty segment. -/
def splitNl : List Nat → List (List Nat)
  | [] => [[]]
  | b :: bs =>
      if b = 10 then [] :: splitNl bs
      else
        match splitNl bs with
        | [] => [[b]]
        | l :: ls => (b :: l) :: ls

/-- One worker's whole job: split the chunk at newlines and fold every
segment into the registry. -/
def processChunk (reg : Registry) (chunk : List Nat) : Option Registry :=
  processLines reg (splitNl chunk)

/-- `memchr::memrchr`: index of the last occurrence of a byte. -/
def memrchr (b : Nat) : List Nat → Option Nat
  | [] => none
  | x :: xs =>
      match memrchr b xs with
      | some i => some (i + 1)
      | none => if x = b then some 0 else none

/-- The loop body of `chunk_at_newlines`, with `k` partitions still to
produce.  For every partition except the last, the boundary is the last
newline before the ideal split point `start + chunkSize`; `none` models
the `expect("There should always be a newline")` panic as well as the
out-of-range slice panics that `&to_chunk[start..end]` would raise. -/
def chunkGo (toChunk : List Nat) (chunkSize : Nat) : Nat → Nat → Option (List (List Nat))
  | _, 0 => some []
  | start, 1 => some [toChunk.drop start]
  | start, k + 2 =>
      if start + chunkSize ≤ toChunk.length then
        match memrchr 10 (toChunk.take (start + chunkSize)) with
        | none => none
        | some e =>
            if start ≤ e then
              match chunkGo toChunk chunkSize (e + 1) (k + 1) with
              | none => none
              | some cs => some ((toChunk.take e).drop start :: cs)
            else none
      else none

/-- `chunk_at_newlines` from main.rs. -/
def chunk_at_newlines (toChunk : List Nat) : Option (List (List Nat)) :=
  chunkGo toChunk (toChunk.length / PARALLELISM) 0 PARALLELISM

/-- One parallel round: chunk `i` is folded into registry `i`
(`chunks.iter().zip(registries.iter_mut())`). -/
def processRound : List Registry → List (List Nat) → Option (List Registry)
  | [], [] => some []
  | reg :: regs, c :: cs =>
      match processChunk reg c, processRound regs cs with
      | some r', some rs' => some (r' :: rs')
      | _, _ => none
  | _, _ => none

/-- The streaming double-buffer loop of `main`.  `working` is the filled
working buffer, `loadCap` the length of the loading buffer, `fileRem` the
not-yet-read bytes of the file.  A read is modelled as filling the free
space of the loading buffer from `fileRem` as far as possible.  `none`
models the `No newline found in working buffer` error, the worker/chunk
panics, and (unreachably) fuel exhaustion. -/
def streamLoop : Nat → List Nat → List Nat → Nat → List Registry → Option (List Registry)
  | 0, _, _, _, _ => none
  | fuel + 1, fileRem, working, loadCap, regs =>
      match memrchr 10 working with
      | none => none
      | some j =>
          let toProcess := working.take j
          let remainder := working.drop (j + 1)
          match chunk_at_newlines toProcess with
          | none => none
          | some chunks =>
              match processRound regs chunks with
              | none => none
              | some regs' =>
                  if remainder.length ≤ loadCap then
                    let readBytes := fileRem.take (loadCap - remainder.length)
                    if readBytes.length = 0 then some regs'
                    else
                      streamLoop fuel (fileRem.drop readBytes.length)
                        (remainder ++ readBytes) working.length regs'
                  else none

/-- Insert-or-merge of one entry during the registry reduction. -/
def regMergeIns : Registry → List Nat → Aggregation → Registry
  | [], name, ag => [(name, ag)]
  | p :: rest, name, ag =>
      if p.1 = name then (p.1, p.2.merge ag) :: rest
      else p :: regMergeIns rest name ag

/-- Fold registry `b` into registry `a` (the body of
`registries.into_iter().reduce(...)`). -/
def regMerge (a b : Registry) : Registry :=
  b.foldl (fun acc p => regMergeIns acc p.1 p.2) a

/-- `registries.into_iter().reduce(...)`; `none` models the
`expect("At least one registry")` (unreachable with 8 registries). -/
def reduceRegs : List Registry → Option Registry
  | [] => none
  | r :: rs => some (rs.foldl regMerge r)

/-- Boolean byte-lexicographic `≤` on names, matching `Ord` on
`Vec<u8>`. -/
def lleb : List Nat → List Nat → Bool
  | [], _ => true
  | _ :: _, [] => false
  | a :: as, b :: bs => if a < b then true else if b < a then false else lleb as bs

/-- The comparator used to sort the final `(name, aggregation)` pairs. -/
def pairLe (p q : List Nat × Aggregation) : Prop := lleb p.1 q.1 = true

instance : DecidableRel pairLe := fun p q => by
  unfold pairLe; infer_instance

/-- `name_aggregations.sort_unstable_by(name cmp)`: since names are unique
keys under a total order, any comparison sort returns the one sorted
permutation; insertion sort is used as the model. -/
def sortPairs (l : List (List Nat × Aggregation)) : List (List Nat × Aggregation) :=
  List.insertionSort pairLe l

/-- `push_float` from main.rs: optional `-` (i32 negation wraps), optional
hundreds digit, then units digit, `.`, tenths digit, each digit computed
in i32 arithmetic and cast `as u8` before adding `b'0'`. -/
def push_float (value : Int) : List Nat :=
  let v := if value < 0 then wrap32 (-value) else value
  (if value < 0 then [45] else []) ++
    (if 100 ≤ v then [(asU8 (v.tdiv 100) + 48) % 256] else []) ++
    [(asU8 ((v.tdiv 10).tmod 10) + 48) % 256, 46, (asU8 (v.tmod 10) + 48) % 256]

/-- `push_aggregation` from main.rs: `name=min/mean/max`. -/
def push_aggregation (name : List Nat) (a : Aggregation) : List Nat :=
  name ++ [61] ++ push_float a.min ++ [47] ++ push_float a.mean ++ [47] ++ push_float a.max

/-- Sorting plus report formatting (`{first, ", " rest...}`); `none`
models the `first().unwrap()` panic on an empty registry. -/
def finalize (merged : Registry) : Option (List Nat) :=
  match sortPairs merged with
  | [] => none
  | p :: ps =>
      some ([123] ++ push_aggregation p.1 p.2 ++
        (ps.map fun q => [44, 32] ++ push_aggregation q.1 q.2).flatten ++ [125])

/-- The whole streaming program of `main`, parameterised by the buffer
size `B` (the binary uses `B = BUFFER_SIZE`): initial read into a
zero-initialised working buffer (the count returned by the first read is
discarded by the source, so the tail stays zero-filled), then the
double-buffer loop, registry reduction, sort and formatting. -/
def streamPipeline (B : Nat) (file : List Nat) : Option (List Nat) :=
  let working0 := file.take B ++ List.replicate (B - (file.take B).length) 0
  match streamLoop (file.length + 1) (file.drop B) working0 B
      (List.replicate PARALLELISM []) with
  | none => none
  | some regs =>
      match reduceRegs regs with
      | none => none
      | some merged => finalize merged

/-- The records of a file as the claims' naive sequential scan sees them:
newline-delimited lines, with a trailing newline not producing a final
empty record. -/
def fileRecords (file : List Nat) : List (List Nat) :=
  if file.getLast? = some 10 then splitNl file.dropLast else splitNl file

/-- The naive single-threaded sequential baseline the spec compares
against: every record folded into one registry in file order, then the
same sort and formatting. -/
def seqPipeline (file : List Nat) : Option (List Nat) :=
  match processLines [] (fileRecords file) with
  | none => none
  | some reg => finalize reg

/-- Fold each chunk of a newline-aligned decomposition into its own local
registry. -/
def mapChunks : List (List Nat) → Option (List Registry)
  | [] => some []
  | c :: cs =>
      match processChunk [] c, mapChunks cs with
      | some r, some rs => some (r :: rs)
      | _, _ => none

/-- Modelled from the spec: the memory-mapped parallel-scan ingestion
strategy (§4.4), which is described by the spec but absent from src/ (only
the streaming strategy is implemented there).  The mapped file, with a
trailing newline trimmed, is split by the caller into newline-aligned
chunks of arbitrary granularity (`chunks` with
`intercalate [10] chunks = trimmed file`); each chunk is folded into a
local registry and the local registries are reduced with the associative
merge, then sorted and formatted as usual. -/
def mmapPipeline (chunks : List (List Nat)) : Option (List Nat) :=
  match mapChunks chunks with
  | none => none
  | some regs =>
      match reduceRegs regs with
      | none => none
      | some merged => finalize merged

/-- The spec's mean policy (§4.2), in exact integer arithmetic with
truncating division: multiply the sum by 10, integer-divide by the count,
round the last digit up if the remainder digit is at least 5, truncate
otherwise. -/
def meanSpec (a : Aggregation) : Int :=
  let tenths := (a.sum * 10).tdiv (a.count : Int)
  if tenths.tmod 10 ≥ 5 then tenths.tdiv 10 + 1 else tenths.tdiv 10

/-- A byte is an ASCII decimal digit. -/
def isDigit (b : Nat) : Prop := 48 ≤ b ∧ b ≤ 57

instance (b : Nat) : Decidable (isDigit b) := by unfold isDigit; infer_instance

/-- The spec's four valid record shapes (§4.1): name, `;`, optional `-`,
one or two integer digits, `.`, one fractional digit. -/
def validShape (line : List Nat) : Prop :=
  ∃ name t o d, isDigit t ∧ isDigit o ∧ isDigit d ∧
    (line = name ++ [59, 45, t, o, 46, d] ∨ line = name ++ [59, 45, o, 46, d] ∨
     line = name ++ [59, t, o, 46, d] ∨ line = name ++ [59, o, 46, d])

/-- The structural shapes that `parse_line`'s slice patterns actually
test for: the byte positions of `;`, optional `-` and `.` relative to the
right end, with the digit positions holding arbitrary bytes. -/
def structShape (line : List Nat) : Prop :=
  ∃ name t o d,
    line = name ++ [59, 45, t, o, 46, d] ∨ line = name ++ [59, 45, o, 46, d] ∨
    line = name ++ [59, t, o, 46, d] ∨ line = name ++ [59, o, 46, d]

/-- The accumulator produced by folding a list of temperature values into
a fresh `Aggregation::new()` via `update` — exactly what a group's record
is after its contributing records are processed. -/
def aggFold (vals : List Int) : Aggregation :=
  vals.foldl Aggregation.update Aggregation.new

/-- `structShape` phrased on the reversed byte list, matching the order in
which `parse_line`'s patterns inspect the slice. -/
def revShape (r : List Nat) : Prop :=
  ∃ rn t o d,
    r = d :: 46 :: o :: t :: 45 :: 59 :: rn ∨ r = d :: 46 :: o :: 45 :: 59 :: rn ∨
    r = d :: 46 :: o :: t :: 59 :: rn ∨ r = d :: 46 :: o :: 59 :: rn

/-- Concatenation of partition slices with the removed newlines restored
between consecutive slices — the spec's reconstruction of the region. -/
def joinNl : List (List Nat) → List Nat
  | [] => []
  | [c] => c
  | c :: cs => c ++ 10 :: joinNl cs

/-- Field bounds every reachable Aggregation satisfies: min can only
decrease from `i32::MAX`, max only increase from `i32::MIN`, sum and
count stay wrapped. -/
def AggWF (a : Aggregation) : Prop :=
  a.min ≤ 2147483647 ∧ -2147483648 ≤ a.max ∧
    (-2147483648 ≤ a.sum ∧ a.sum ≤ 2147483647) ∧ a.count < 4294967296

/-- Values contributed by `lines` to the group `name` (in order). -/
def valsOf (lines : List (List Nat)) (name : List Nat) : List Int :=
  lines.filterMap fun l =>
    match parse_line l with
    | some nv => if nv.1 = name then some nv.2 else none
    | none => none

/-- The per-name content of an optional registry entry after folding in a
list of further values: `none` with no values stays absent, otherwise the
values are folded by `update` (starting from `Aggregation.new` for a
fresh entry). -/
def combineO : Option Aggregation → List Int → Option Aggregation
  | none, [] => none
  | none, v :: vs => some ((v :: vs).foldl Aggregation.update Aggregation.new)
  | some a, vs => some (vs.foldl Aggregation.update a)

/-- Merge of two optional registry entries. -/
def mergeO : Option Aggregation → Option Aggregation → Option Aggregation
  | none, b => b
  | some a, none => some a
  | some a, some b => some (a.merge b)

/-- The key list of a registry. -/
def regKeys (reg : Registry) : List (List Nat) := reg.map Prod.fst

/-- The per-slot correspondence between line lists and registries. -/
def RegsOf (Ls : List (List (List Nat))) (regs : List Registry) : Prop :=
  List.Forall₂ (fun L reg => processLines [] L = some reg) Ls regs

/-- A 16-record input file (bytes of `a;1.0\n` ... `p;2.5\n`), with a trailing newline. -/
def exampleFile : List Nat :=
  [97, 59, 49, 46, 48, 10, 98, 59, 49, 46, 49, 10, 99, 59, 49, 46, 50, 10,
   100, 59, 49, 46, 51, 10, 101, 59, 49, 46, 52, 10, 102, 59, 49, 46, 53,
   10, 103, 59, 49, 46, 54, 10, 104, 59, 49, 46, 55, 10, 105, 59, 49, 46,
   56, 10, 106, 59, 49, 46, 57, 10, 107, 59, 50, 46, 48, 10, 108, 59, 50,
   46, 49, 10, 109, 59, 50, 46, 50, 10, 110, 59, 50, 46, 51, 10, 111, 59,
   50, 46, 52, 10, 112, 59, 50, 46, 53, 10]

/-- The same 16 records followed by a 17th record `z;9.9` with no trailing newline. -/
def fileNoNl : List Nat :=
  [97, 59, 49, 46, 48, 10, 98, 59, 49, 46, 49, 10, 99, 59, 49, 46, 50, 10,
   100, 59, 49, 46, 51, 10, 101, 59, 49, 46, 52, 10, 102, 59, 49, 46, 53,
   10, 103, 59, 49, 46, 54, 10, 104, 59, 49, 46, 55, 10, 105, 59, 49, 46,
   56, 10, 106, 59, 49, 46, 57, 10, 107, 59, 50, 46, 48, 10, 108, 59, 50,
   46, 49, 10, 109, 59, 50, 46, 50, 10, 110, 59, 50, 46, 51, 10, 111, 59,
   50, 46, 52, 10, 112, 59, 50, 46, 53, 10, 122, 59, 57, 46, 57]

/-
Arithmetic facts about the wrapped i32/u32 operations.
-/

theorem wrap32_idem (x : Int) : wrap32 (wrap32 x) = wrap32 x := by
  unfold wrap32; omega

theorem wrap32_add_left (x y : Int) : wrap32 (wrap32 x + y) = wrap32 (x + y) := by
  unfold wrap32; omega

theorem wrap32_add_right (x y : Int) : wrap32 (x + wrap32 y) = wrap32 (x + y) := by
  unfold wrap32; omega

theorem wrap32_eq_self {x : Int} (h1 : -2147483648 ≤ x) (h2 : x ≤ 2147483647) :
    wrap32 x = x := by
  unfold wrap32; omega

theorem wrap32_range (x : Int) : -2147483648 ≤ wrap32 x ∧ wrap32 x ≤ 2147483647 := by
  unfold wrap32; omega

theorem Aggregation.merge_comm (a b : Aggregation) : a.merge b = b.merge a := by
  unfold Aggregation.merge
  simp only [Aggregation.mk.injEq]
  refine ⟨min_comm a.min b.min, max_comm a.max b.max, by rw [add_comm], by rw [Nat.add_comm]⟩

theorem Aggregation.merge_assoc (a b c : Aggregation) :
    (a.merge b).merge c = a.merge (b.merge c) := by
  unfold Aggregation.merge
  simp only [Aggregation.mk.injEq, wrap32_add_left, wrap32_add_right]
  refine ⟨min_assoc a.min b.min c.min, max_assoc a.max b.max c.max,
    by rw [add_assoc], by omega⟩

theorem Aggregation.merge_update (a b : Aggregation) (v : Int) :
    (a.merge b).update v = a.merge (b.update v) := by
  unfold Aggregation.merge Aggregation.update
  simp only [Aggregation.mk.injEq, wrap32_add_left, wrap32_add_right]
  refine ⟨min_assoc a.min b.min v, max_assoc a.max b.max v, by rw [add_assoc], by omega⟩

theorem Aggregation.update_right_comm (a : Aggregation) (v w : Int) :
    (a.update v).update w = (a.update w).update v := by
  unfold Aggregation.update
  simp only [Aggregation.mk.injEq, wrap32_add_left]
  refine ⟨min_right_comm a.min v w, ?_, ?_, trivial⟩
  · rw [max_assoc, max_comm v w, ← max_assoc]
  · apply congrArg
    ring

/-- C2: `merge` is commutative and associative: for any three Aggregation
Records A, B, C, `merge(merge(A,B),C) = merge(A,merge(B,C)) =
merge(merge(B,A),C)`, with equality on every field (min, max, sum,
count). -/
theorem merge_comm_assoc (A B C : Aggregation) :
    (A.merge B).merge C = A.merge (B.merge C) ∧
      (A.merge B).merge C = (B.merge A).merge C :=
  ⟨Aggregation.merge_assoc A B C, by rw [Aggregation.merge_comm A B]⟩

/-- C3 (amended): `mean()` equals the spec's round-half-up policy in
truncating integer arithmetic only within non-overflow bounds — for every
Aggregation Record with positive count such that the product `sum * 10`
stays in i32 range and the count stays below 2^31 (so the u32-to-i32
divisor reinterpretation is the identity); in particular mean = 8 for
sum=15,count=2, mean = 7 for sum=14,count=2, and the negative quotient
truncates toward zero before the half-up rule, giving mean = -7 for
sum=-15,count=2.  Outside those bounds the claim fails for records with
positive count (see the counterexample). -/
theorem mean_matches_round_half_up :
    (∀ a : Aggregation, 0 < a.count → a.count < 2147483648 →
      -2147483648 ≤ a.sum * 10 → a.sum * 10 ≤ 2147483647 →
      a.mean = meanSpec a) ∧
    ({ min := 15, max := 15, sum := 15, count := 2 : Aggregation }).mean = 8 ∧
    ({ min := 14, max := 14, sum := 14, count := 2 : Aggregation }).mean = 7 ∧
    ({ min := -15, max := -15, sum := -15, count := 2 : Aggregation }).mean = -7 := by
  refine ⟨fun a h1 h2 h3 h4 => ?_, by decide, by decide, by decide⟩
  unfold Aggregation.mean meanSpec i32OfU32
  rw [wrap32_eq_self h3 h4, if_pos h2]

/-- Witness for `mean_matches_round_half_up` at sum = 15, count = 2. -/
theorem mean_matches_round_half_up_witness :
    0 < ({ min := 15, max := 15, sum := 15, count := 2 : Aggregation }).count ∧
      ({ min := 15, max := 15, sum := 15, count := 2 : Aggregation }).mean =
        meanSpec { min := 15, max := 15, sum := 15, count := 2 } :=
  ⟨by decide,
    mean_matches_round_half_up.1 { min := 15, max := 15, sum := 15, count := 2 }
      (by decide) (by decide) (by decide) (by decide)⟩

/-- C3 counterexample: Aggregation Records with positive count on which
`mean()` deviates from the spec's exact round-half-up policy.  At
sum = 300000000, count = 1 (both in range for their types) the i32
product `sum * 10` wraps to -1294967296 and `mean()` returns -129496729
while the policy gives 300000000; at sum = 15, count = 4294967295 the
divisor `self.count as i32` reinterprets to -1 and `mean()` returns -15
while the policy gives 0. -/
theorem mean_deviates_outside_range :
    (0 < ({ min := 0, max := 0, sum := 300000000, count := 1 : Aggregation }).count ∧
      ({ min := 0, max := 0, sum := 300000000, count := 1 : Aggregation }).mean =
        -129496729 ∧
      meanSpec { min := 0, max := 0, sum := 300000000, count := 1 } = 300000000) ∧
    (0 < ({ min := 0, max := 0, sum := 15, count := 4294967295 : Aggregation }).count ∧
      ({ min := 0, max := 0, sum := 15, count := 4294967295 : Aggregation }).mean =
        -15 ∧
      meanSpec { min := 0, max := 0, sum := 15, count := 4294967295 } = 0) := by
  exact ⟨⟨by decide, by decide, by decide⟩, ⟨by decide, by decide, by decide⟩⟩

theorem foldl_update_sum_replicate (n : Nat) (v : Int) (a : Aggregation) :
    ((List.replicate n v).foldl Aggregation.update a).sum =
      if n = 0 then a.sum else wrap32 (a.sum + n * v) := by
  induction n generalizing a with
  | zero => simp
  | succ m ih =>
      rw [List.replicate_succ, List.foldl_cons, ih]
      by_cases hm : m = 0
      · simp [hm, Aggregation.update]
      · rw [if_neg hm, if_neg (Nat.succ_ne_zero m)]
        simp only [Aggregation.update]
        rw [wrap32_add_left]
        apply congrArg
        push_cast
        ring

theorem foldl_update_count_replicate (n : Nat) (v : Int) (a : Aggregation) :
    ((List.replicate n v).foldl Aggregation.update a).count =
      if n = 0 then a.count else (a.count + n) % 4294967296 := by
  induction n generalizing a with
  | zero => simp
  | succ m ih =>
      rw [List.replicate_succ, List.foldl_cons, ih]
      by_cases hm : m = 0
      · simp [hm, Aggregation.update]
      · rw [if_neg hm, if_neg (Nat.succ_ne_zero m)]
        simp only [Aggregation.update]
        omega

/-- C9 counterexample: after 2^31 contributing records of tenths-value 1,
the i32 sum accumulator holds -2147483648 while the mathematical sum of
the contributing values is 2147483648 — the accumulator deviates for a
large enough number of records, refuting "never deviate ... for any
number of records". -/
theorem sum_wraps_on_overflow :
    (aggFold (List.replicate 2147483648 (1 : Int))).sum = -2147483648 ∧
      (List.replicate 2147483648 (1 : Int)).sum = 2147483648 ∧
      (aggFold (List.replicate 2147483648 (1 : Int))).sum ≠
        (List.replicate 2147483648 (1 : Int)).sum := by
  have h1 : (aggFold (List.replicate 2147483648 (1 : Int))).sum = -2147483648 := by
    rw [aggFold, foldl_update_sum_replicate]
    norm_num [Aggregation.new, wrap32]
  have h2 : (List.replicate 2147483648 (1 : Int)).sum = 2147483648 := by
    rw [List.sum_replicate]
    norm_num
  exact ⟨h1, h2, by rw [h1, h2]; norm_num⟩

/-- C9 (amended): the sum and count accumulators are exact as long as no
intermediate mathematical prefix sum leaves the i32 range and the total
count stays below 2^32; likewise a single merge is exact when the
combined sum stays in i32 range and the combined count below 2^32. -/
theorem sum_count_exact_within_range :
    (∀ vals : List Int,
      (∀ k, k ≤ vals.length →
        -2147483648 ≤ (vals.take k).sum ∧ (vals.take k).sum ≤ 2147483647) →
      vals.length < 4294967296 →
      (aggFold vals).sum = vals.sum ∧ (aggFold vals).count = vals.length) ∧
    (∀ a b : Aggregation,
      -2147483648 ≤ a.sum + b.sum → a.sum + b.sum ≤ 2147483647 →
      a.count + b.count < 4294967296 →
      (a.merge b).sum = a.sum + b.sum ∧ (a.merge b).count = a.count + b.count) := by
  constructor
  · intro vals
    induction vals using List.reverseRecOn with
    | nil => intro _ _; simp [aggFold, Aggregation.new]
    | append_singleton ys v ih =>
        intro hpre hlen
        have hys := ih (fun k hk => by
            have := hpre k (by simp; omega)
            rwa [List.take_append_of_le_length hk] at this)
          (by simp at hlen ⊢; omega)
        have hfull := hpre (ys.length + 1) (by simp)
        rw [List.take_of_length_le (by simp)] at hfull
        constructor
        · rw [aggFold, List.foldl_append, List.foldl_cons, List.foldl_nil]
          show wrap32 ((aggFold ys).sum + v) = _
          rw [hys.1, List.sum_append, List.sum_cons, List.sum_nil]
          rw [wrap32_eq_self (by simpa using hfull.1) (by simpa using hfull.2)]
          ring
        · rw [aggFold, List.foldl_append, List.foldl_cons, List.foldl_nil]
          show ((aggFold ys).count + 1) % 4294967296 = _
          rw [hys.2]
          simp at hlen ⊢
          omega
  · intro a b h1 h2 h3
    simp only [Aggregation.merge]
    rw [wrap32_eq_self h1 h2]
    exact ⟨rfl, Nat.mod_eq_of_lt h3⟩

/-- Witness for `sum_count_exact_within_range` at vals = [10, 20]. -/
theorem sum_count_exact_within_range_witness :
    (∀ k, k ≤ ([10, 20] : List Int).length →
      -2147483648 ≤ (([10, 20] : List Int).take k).sum ∧
        (([10, 20] : List Int).take k).sum ≤ 2147483647) ∧
    (aggFold [10, 20]).sum = ([10, 20] : List Int).sum ∧
      (aggFold [10, 20]).count = ([10, 20] : List Int).length :=
  ⟨by decide, sum_count_exact_within_range.1 [10, 20] (by decide) (by norm_num)⟩

theorem parseRev_none_iff (r : List Nat) : parseRev r = none ↔ ¬ revShape r := by
  constructor
  · intro h hs
    obtain ⟨rn, t, o, d, hc⟩ := hs
    rcases hc with hc | hc | hc | hc <;> subst hc
    · simp [parseRev] at h
    · simp [parseRev] at h
    · by_cases ht : t = 45
      · subst ht; simp [parseRev] at h
      · simp [parseRev, ht] at h
    · rcases rn with _ | ⟨x, xs⟩
      · simp [parseRev] at h
      · by_cases hx : x = 45
        · subst hx
          rcases xs with _ | ⟨y, ys⟩
          · simp [parseRev] at h
          · by_cases hy : y = 59
            · subst hy; simp [parseRev] at h
            · simp [parseRev, hy] at h
        · by_cases hx59 : x = 59
          · subst hx59; simp [parseRev] at h
          · simp [parseRev, hx, hx59] at h
  · intro h
    unfold parseRev
    split
    · exact absurd ⟨_, _, _, _, Or.inl rfl⟩ h
    · exact absurd ⟨_, 0, _, _, Or.inr (Or.inl rfl)⟩ h
    · exact absurd ⟨_, _, _, _, Or.inr (Or.inr (Or.inl rfl))⟩ h
    · exact absurd ⟨_, 0, _, _, Or.inr (Or.inr (Or.inr rfl))⟩ h
    · rfl

theorem structShape_iff_revShape (line : List Nat) :
    structShape line ↔ revShape line.reverse := by
  constructor
  · rintro ⟨name, t, o, d, hc⟩
    refine ⟨name.reverse, t, o, d, ?_⟩
    rcases hc with hc | hc | hc | hc <;> subst hc <;> simp
  · rintro ⟨rn, t, o, d, hc⟩
    refine ⟨rn.reverse, t, o, d, ?_⟩
    rcases hc with hc | hc | hc | hc
    · exact Or.inl (by rw [← List.reverse_reverse line, hc]; simp)
    · exact Or.inr (Or.inl (by rw [← List.reverse_reverse line, hc]; simp))
    · exact Or.inr (Or.inr (Or.inl (by rw [← List.reverse_reverse line, hc]; simp)))
    · exact Or.inr (Or.inr (Or.inr (by rw [← List.reverse_reverse line, hc]; simp)))

theorem parseRev_arm4 (o d : Nat) (rn : List Nat) (h59 : 59 ∉ rn) :
    parseRev (d :: 46 :: o :: 59 :: rn) = some (rn.reverse, parseVal 48 o d) := by
  rcases rn with _ | ⟨x, xs⟩
  · simp [parseRev]
  · have hx59 : x ≠ 59 := fun h => h59 (h ▸ List.mem_cons_self x xs)
    by_cases hx : x = 45
    · subst hx
      rcases xs with _ | ⟨y, ys⟩
      · simp [parseRev]
      · have hy59 : y ≠ 59 := fun h =>
          h59 (List.mem_cons_of_mem _ (h ▸ List.mem_cons_self y ys))
        simp [parseRev, hy59]
    · simp [parseRev, hx, hx59]

theorem parse_line_shapes (name : List Nat) (t o d : Nat) (ht45 : t ≠ 45)
    (hname : 59 ∉ name) :
    parse_line (name ++ [59, 45, t, o, 46, d]) = some (name, -parseVal t o d) ∧
    parse_line (name ++ [59, 45, o, 46, d]) = some (name, -parseVal 48 o d) ∧
    parse_line (name ++ [59, t, o, 46, d]) = some (name, parseVal t o d) ∧
    parse_line (name ++ [59, o, 46, d]) = some (name, parseVal 48 o d) := by
  have hname59 : 59 ∉ name.reverse := by
    intro h; exact hname (List.mem_reverse.mp h)
  refine ⟨?_, ?_, ?_, ?_⟩
  · simp [parse_line, List.reverse_append, parseRev]
  · simp [parse_line, List.reverse_append, parseRev]
  · simp [parse_line, List.reverse_append, parseRev, ht45]
  · rw [parse_line, List.reverse_append]
    simp only [List.reverse_cons, List.reverse_nil, List.nil_append,
      List.cons_append, List.append_assoc, List.append_nil]
    rw [parseRev_arm4 o d name.reverse hname59, List.reverse_reverse]

/-- C4 (amended): on a byte slice of the form name, `;`, optional `-`,
digit bytes in the one- or two-digit positions, `.`, digit byte — with no
`;` inside the name — `parse_line` returns the name sub-slice and the
signed tenths value; and it aborts exactly on the slices lacking one of
the four *structural* shapes (the `;`/`-`/`.` positions, with arbitrary
bytes in the digit positions): digit-ness is not validated, so a
structurally shaped slice with non-digit bytes is accepted rather than
rejected. -/
theorem parse_line_spec :
    (∀ name t o d : _, isDigit t → isDigit o → isDigit d → 59 ∉ name →
      parse_line (name ++ [59, 45, t, o, 46, d]) = some (name, -parseVal t o d) ∧
      parse_line (name ++ [59, 45, o, 46, d]) = some (name, -parseVal 48 o d) ∧
      parse_line (name ++ [59, t, o, 46, d]) = some (name, parseVal t o d) ∧
      parse_line (name ++ [59, o, 46, d]) = some (name, parseVal 48 o d)) ∧
    (∀ line, parse_line line = none ↔ ¬ structShape line) := by
  constructor
  · intro name t o d ht ho hd hname
    exact parse_line_shapes name t o d (by rcases ht with ⟨h1, h2⟩; omega) hname
  · intro line
    rw [parse_line, parseRev_none_iff, structShape_iff_revShape]

/-- Witness for `parse_line_spec` at the record `a;-12.3`. -/
theorem parse_line_spec_witness :
    (isDigit 49 ∧ isDigit 50 ∧ isDigit 51 ∧ 59 ∉ [97]) ∧
      parse_line ([97] ++ [59, 45, 49, 50, 46, 51]) = some ([97], -parseVal 49 50 51) :=
  ⟨by decide, ((parse_line_spec.1 [97] 49 50 51 (by decide) (by decide)
      (by decide) (by decide)).1)⟩

/-- C4 counterexample: `a;bc.d` matches none of the spec's four valid
shapes (its digit positions hold non-digit bytes), yet `parse_line` does
not abort on it — it returns the name `a` and the garbage value 5562 —
refuting "for every slice not matching one of the four valid shapes (and
only for such slices) it aborts fatally". -/
theorem parse_line_no_abort_on_nondigits :
    ¬ validShape [97, 59, 98, 99, 46, 100] ∧
      parse_line [97, 59, 98, 99, 46, 100] = some ([97], 5562) := by
  constructor
  · rintro ⟨name, t, o, d, ht, ho, hd, hc⟩
    rcases hc with hc | hc | hc | hc
    · have hl := congrArg List.length hc
      simp at hl
      rcases name with _ | ⟨a, name⟩
      · simp at hc
      · simp at hl
    · have hl := congrArg List.length hc
      simp at hl
      rcases name with _ | ⟨a, name⟩
      · simp at hl
      · rcases name with _ | ⟨b, name⟩
        · simp at hc
        · simp at hl
    · have hl := congrArg List.length hc
      simp at hl
      rcases name with _ | ⟨a, name⟩
      · simp at hl
      · rcases name with _ | ⟨b, name⟩
        · simp at hc
          rcases hd with ⟨h1, h2⟩
          omega
        · simp at hl
    · have hl := congrArg List.length hc
      simp at hl
      rcases name with _ | ⟨a, name⟩
      · simp at hl
      · rcases name with _ | ⟨b, name⟩
        · simp at hl
        · rcases name with _ | ⟨c, name⟩
          · simp at hc
          · simp at hl
  · decide

theorem push_float_parseVal3 (t o d : Nat) (ht1 : 49 ≤ t) (ht2 : t ≤ 57)
    (ho1 : 48 ≤ o) (ho2 : o ≤ 57) (hd1 : 48 ≤ d) (hd2 : d ≤ 57) :
    push_float (parseVal t o d) = [t, o, 46, d] := by
  have hv : parseVal t o d = 100 * ((t:Int) - 48) + 10 * ((o:Int) - 48) + ((d:Int) - 48) := by
    unfold parseVal; ring
  have hneg : ¬ (parseVal t o d < 0) := by omega
  have hb1 : (100:Int) ≤ parseVal t o d := by omega
  have e1 : (parseVal t o d).tdiv 100 = (t:Int) - 48 := by
    rw [Int.tdiv_eq_ediv (by omega) (by norm_num)]; omega
  have e2 : ((parseVal t o d).tdiv 10).tmod 10 = (o:Int) - 48 := by
    have h10 : (parseVal t o d).tdiv 10 = 10 * ((t:Int) - 48) + ((o:Int) - 48) := by
      rw [Int.tdiv_eq_ediv (by omega) (by norm_num)]; omega
    rw [h10, Int.tmod_eq_emod (by omega) (by norm_num)]; omega
  have e3 : (parseVal t o d).tmod 10 = (d:Int) - 48 := by
    rw [Int.tmod_eq_emod (by omega) (by norm_num)]; omega
  unfold push_float
  simp only [if_neg hneg, if_pos hb1, e1, e2, e3]
  unfold asU8
  simp only [List.cons_append, List.nil_append, List.cons.injEq]
  repeat' apply And.intro
  all_goals first
    | trivial
    | omega

theorem push_float_parseVal2 (o d : Nat)
    (ho1 : 48 ≤ o) (ho2 : o ≤ 57) (hd1 : 48 ≤ d) (hd2 : d ≤ 57) :
    push_float (parseVal 48 o d) = [o, 46, d] := by
  have hv : parseVal 48 o d = 10 * ((o:Int) - 48) + ((d:Int) - 48) := by
    unfold parseVal; push_cast; ring
  have hneg : ¬ (parseVal 48 o d < 0) := by omega
  have hb1 : ¬ ((100:Int) ≤ parseVal 48 o d) := by omega
  have e2 : ((parseVal 48 o d).tdiv 10).tmod 10 = (o:Int) - 48 := by
    have h10 : (parseVal 48 o d).tdiv 10 = (o:Int) - 48 := by
      rw [Int.tdiv_eq_ediv (by omega) (by norm_num)]; omega
    rw [h10, Int.tmod_eq_emod (by omega) (by norm_num)]; omega
  have e3 : (parseVal 48 o d).tmod 10 = (d:Int) - 48 := by
    rw [Int.tmod_eq_emod (by omega) (by norm_num)]; omega
  unfold push_float
  simp only [if_neg hneg, if_neg hb1, e2, e3]
  unfold asU8
  simp only [List.cons_append, List.nil_append, List.cons.injEq]
  repeat' apply And.intro
  all_goals first
    | trivial
    | omega

theorem push_float_neg_parseVal3 (t o d : Nat) (ht1 : 49 ≤ t) (ht2 : t ≤ 57)
    (ho1 : 48 ≤ o) (ho2 : o ≤ 57) (hd1 : 48 ≤ d) (hd2 : d ≤ 57) :
    push_float (-parseVal t o d) = [45, t, o, 46, d] := by
  have hv : parseVal t o d = 100 * ((t:Int) - 48) + 10 * ((o:Int) - 48) + ((d:Int) - 48) := by
    unfold parseVal; ring
  have hneg : -parseVal t o d < 0 := by omega
  have hw : wrap32 (- -parseVal t o d) = parseVal t o d := by
    rw [neg_neg]; exact wrap32_eq_self (by omega) (by omega)
  unfold push_float
  simp only [if_pos hneg, hw]
  rw [if_pos (show (100:Int) ≤ parseVal t o d by omega)]
  have e1 : (parseVal t o d).tdiv 100 = (t:Int) - 48 := by
    rw [Int.tdiv_eq_ediv (by omega) (by norm_num)]; omega
  have e2 : ((parseVal t o d).tdiv 10).tmod 10 = (o:Int) - 48 := by
    have h10 : (parseVal t o d).tdiv 10 = 10 * ((t:Int) - 48) + ((o:Int) - 48) := by
      rw [Int.tdiv_eq_ediv (by omega) (by norm_num)]; omega
    rw [h10, Int.tmod_eq_emod (by omega) (by norm_num)]; omega
  have e3 : (parseVal t o d).tmod 10 = (d:Int) - 48 := by
    rw [Int.tmod_eq_emod (by omega) (by norm_num)]; omega
  simp only [e1, e2, e3]
  unfold asU8
  simp only [List.cons_append, List.nil_append, List.cons.injEq]
  repeat' apply And.intro
  all_goals first
    | trivial
    | omega

theorem push_float_neg_parseVal2 (o d : Nat)
    (ho1 : 48 ≤ o) (ho2 : o ≤ 57) (hd1 : 48 ≤ d) (hd2 : d ≤ 57)
    (hnz : ¬ (o = 48 ∧ d = 48)) :
    push_float (-parseVal 48 o d) = [45, o, 46, d] := by
  have hv : parseVal 48 o d = 10 * ((o:Int) - 48) + ((d:Int) - 48) := by
    unfold parseVal; push_cast; ring
  have hpos : 0 < parseVal 48 o d := by omega
  have hneg : -parseVal 48 o d < 0 := by omega
  have hw : wrap32 (- -parseVal 48 o d) = parseVal 48 o d := by
    rw [neg_neg]; exact wrap32_eq_self (by omega) (by omega)
  unfold push_float
  simp only [if_pos hneg, hw]
  rw [if_neg (show ¬ (100:Int) ≤ parseVal 48 o d by omega)]
  have e2 : ((parseVal 48 o d).tdiv 10).tmod 10 = (o:Int) - 48 := by
    have h10 : (parseVal 48 o d).tdiv 10 = (o:Int) - 48 := by
      rw [Int.tdiv_eq_ediv (by omega) (by norm_num)]; omega
    rw [h10, Int.tmod_eq_emod (by omega) (by norm_num)]; omega
  have e3 : (parseVal 48 o d).tmod 10 = (d:Int) - 48 := by
    rw [Int.tmod_eq_emod (by omega) (by norm_num)]; omega
  simp only [e2, e3]
  unfold asU8
  simp only [List.cons_append, List.nil_append, List.cons.injEq]
  repeat' apply And.intro
  all_goals first
    | trivial
    | omega

/-- C8 (amended): parse/format round-trip holds for every canonically
written in-range temperature — shapes `t o . d` and `-t o . d` with a
nonzero tens digit, shape `o . d` unrestricted, and shape `-o . d` other
than `-0.0` — while `-0.0` itself (a shape the generator can emit) breaks
the round-trip because its parsed tenths value is 0, which is rendered
back as `0.0`.  Names must not contain `;`. -/
theorem parse_format_roundtrip :
    (∀ name t o d, isDigit t → 49 ≤ t → isDigit o → isDigit d → 59 ∉ name →
      (parse_line (name ++ [59, 45, t, o, 46, d])).map (fun nv => push_float nv.2) =
        some [45, t, o, 46, d] ∧
      (parse_line (name ++ [59, t, o, 46, d])).map (fun nv => push_float nv.2) =
        some [t, o, 46, d]) ∧
    (∀ name o d, isDigit o → isDigit d → 59 ∉ name →
      (¬ (o = 48 ∧ d = 48) →
        (parse_line (name ++ [59, 45, o, 46, d])).map (fun nv => push_float nv.2) =
          some [45, o, 46, d]) ∧
      (parse_line (name ++ [59, o, 46, d])).map (fun nv => push_float nv.2) =
        some [o, 46, d]) := by
  constructor
  · intro name t o d ht ht49 ho hd hname
    obtain ⟨ht1, ht2⟩ := ht; obtain ⟨ho1, ho2⟩ := ho; obtain ⟨hd1, hd2⟩ := hd
    have hsh := parse_line_shapes name t o d (by omega) hname
    refine ⟨?_, ?_⟩
    · rw [hsh.1, Option.map_some']
      rw [push_float_neg_parseVal3 t o d ht49 ht2 ho1 ho2 hd1 hd2]
    · rw [hsh.2.2.1, Option.map_some']
      rw [push_float_parseVal3 t o d ht49 ht2 ho1 ho2 hd1 hd2]
  · intro name o d ho hd hname
    obtain ⟨ho1, ho2⟩ := ho; obtain ⟨hd1, hd2⟩ := hd
    have hsh := parse_line_shapes name 48 o d (by omega) hname
    refine ⟨fun hnz => ?_, ?_⟩
    · rw [hsh.2.1, Option.map_some']
      rw [push_float_neg_parseVal2 o d ho1 ho2 hd1 hd2 hnz]
    · rw [hsh.2.2.2, Option.map_some']
      rw [push_float_parseVal2 o d ho1 ho2 hd1 hd2]

/-- Witness for `parse_format_roundtrip` at the record `a;-12.3`. -/
theorem parse_format_roundtrip_witness :
    (isDigit 49 ∧ 49 ≤ 49 ∧ isDigit 50 ∧ isDigit 51 ∧ 59 ∉ [97]) ∧
      (parse_line ([97] ++ [59, 45, 49, 50, 46, 51])).map (fun nv => push_float nv.2) =
        some [45, 49, 50, 46, 51] :=
  ⟨by decide, (parse_format_roundtrip.1 [97] 49 50 51 (by decide) (by decide)
      (by decide) (by decide) (by decide)).1⟩

/-- C8 counterexample: the record `a;-0.0` has one of the claim's
representable shapes (`-1.2` with digits `0`, `0`), parses to the tenths
value 0, and the fixed-point writer renders 0 as `0.0` — not the original
digits `-0.0` — refuting the round-trip for every in-range value of those
shapes. -/
theorem roundtrip_fails_on_minus_zero :
    parse_line [97, 59, 45, 48, 46, 48] = some ([97], 0) ∧
      push_float 0 = [48, 46, 48] ∧
      (parse_line [97, 59, 45, 48, 46, 48]).map (fun nv => push_float nv.2) ≠
        some [45, 48, 46, 48] := by
  refine ⟨by decide, by decide, by decide⟩

theorem joinNl_cons (c : List Nat) (cs : List (List Nat)) (h : cs ≠ []) :
    joinNl (c :: cs) = c ++ 10 :: joinNl cs := by
  rcases cs with _ | ⟨c2, cs⟩
  · exact absurd rfl h
  · rfl

theorem memrchr_none_iff (b : Nat) (l : List Nat) :
    memrchr b l = none ↔ b ∉ l := by
  induction l with
  | nil => simp [memrchr]
  | cons x xs ih =>
      rw [memrchr]
      rcases hm : memrchr b xs with _ | i
      · rw [hm] at ih
        by_cases hx : x = b
        · simp [hx]
        · simp only [if_neg hx, List.mem_cons]
          constructor
          · intro h hc
            rcases hc with hc | hc
            · exact hx hc.symm
            · exact (ih.mp rfl) hc
          · intro _; trivial
      · rw [hm] at ih
        simp only [List.mem_cons]
        constructor
        · intro h; exact absurd h (by simp)
        · intro h
          exfalso
          apply h
          right
          by_contra hb
          exact Option.noConfusion (ih.mpr hb)

theorem memrchr_some_split (b : Nat) (l : List Nat) (i : Nat)
    (h : memrchr b l = some i) :
    i < l.length ∧ l = l.take i ++ b :: l.drop (i + 1) := by
  induction l generalizing i with
  | nil => simp [memrchr] at h
  | cons x xs ih =>
      rw [memrchr] at h
      rcases hm : memrchr b xs with _ | j
      · rw [hm] at h
        by_cases hx : x = b
        · simp [hx] at h
          subst h
          simp [hx]
        · simp [hx] at h
      · rw [hm] at h
        simp at h
        subst h
        obtain ⟨hj, heq⟩ := ih j hm
        refine ⟨by simpa using Nat.succ_lt_succ hj, ?_⟩
        calc x :: xs = x :: (xs.take j ++ b :: xs.drop (j + 1)) := by rw [← heq]
        _ = (x :: xs).take (j + 1) ++ b :: (x :: xs).drop (j + 2) := by simp

theorem chunkGo_joinNl (toChunk : List Nat) (chunkSize : Nat) :
    ∀ k start cs, 1 ≤ k → chunkGo toChunk chunkSize start k = some cs →
      cs.length = k ∧ toChunk.drop start = joinNl cs := by
  intro k
  induction k with
  | zero => intro start cs h; omega
  | succ n ih =>
      intro start cs _ h
      rcases n with _ | m
      · rw [chunkGo] at h
        simp at h
        subst h
        exact ⟨rfl, rfl⟩
      · rw [chunkGo] at h
        by_cases hle : start + chunkSize ≤ toChunk.length
        · rw [if_pos hle] at h
          rcases hm : memrchr 10 (toChunk.take (start + chunkSize)) with _ | e
          · rw [hm] at h; exact Option.noConfusion h
          · rw [hm] at h
            simp only [] at h
            by_cases hse : start ≤ e
            · rw [if_pos hse] at h
              rcases hrec : chunkGo toChunk chunkSize (e + 1) (m + 1) with _ | cs2
              · rw [hrec] at h; exact Option.noConfusion h
              · rw [hrec] at h
                simp at h
                subst h
                obtain ⟨hlen, hjoin⟩ := ih (e + 1) cs2 (by omega) hrec
                have hcs2 : cs2 ≠ [] := by
                  intro hc; rw [hc] at hlen; simp at hlen
                obtain ⟨he, hsplit⟩ := memrchr_some_split 10 _ _ hm
                rw [List.length_take] at he
                have helen : e < toChunk.length := lt_of_lt_of_le he (min_le_right _ _)
                have hesc : e < start + chunkSize := lt_of_lt_of_le he (min_le_left _ _)
                have htk : (toChunk.take (start + chunkSize)).take e = toChunk.take e := by
                  rw [List.take_take]
                  congr 1
                  omega
                have hdk : (toChunk.take (start + chunkSize)).drop (e + 1) ++
                    toChunk.drop (start + chunkSize) = toChunk.drop (e + 1) := by
                  have h1 : toChunk.drop (e + 1) =
                      (toChunk.take (start + chunkSize) ++
                        toChunk.drop (start + chunkSize)).drop (e + 1) := by
                    rw [List.take_append_drop]
                  rw [h1, List.drop_append_of_le_length]
                  rw [List.length_take]
                  omega
                have hfull : toChunk = toChunk.take e ++ 10 :: toChunk.drop (e + 1) := by
                  conv_lhs => rw [← List.take_append_drop (start + chunkSize) toChunk]
                  rw [hsplit]
                  rw [htk, List.append_assoc, List.cons_append, hdk]
                constructor
                · simp [hlen]
                · rw [joinNl_cons _ _ hcs2, ← hjoin]
                  conv_lhs => rw [hfull]
                  rw [List.drop_append_of_le_length (by rw [List.length_take]; omega)]
            · rw [if_neg hse] at h; exact Option.noConfusion h
        · rw [if_neg hle] at h; exact Option.noConfusion h

/-- C5: partitioning is lossless — whenever `chunk_at_newlines` accepts a
region, it returns exactly PARALLELISM slices whose concatenation with
the removed newlines restored between consecutive slices reproduces the
region byte-for-byte (hence every internal boundary sits immediately
after a newline byte, and the last slice runs to the end of the region);
and on a region containing no newline at all it fails (the
`expect("There should always be a newline")` panic). -/
theorem chunk_at_newlines_lossless :
    (∀ region cs, chunk_at_newlines region = some cs →
      cs.length = PARALLELISM ∧ region = joinNl cs) ∧
    (∀ region, 10 ∉ region → chunk_at_newlines region = none) := by
  constructor
  · intro region cs h
    obtain ⟨hlen, hjoin⟩ :=
      chunkGo_joinNl region (region.length / PARALLELISM) PARALLELISM 0 cs
        (by norm_num [PARALLELISM]) h
    exact ⟨hlen, by simpa using hjoin⟩
  · intro region hnl
    rw [chunk_at_newlines]
    show chunkGo region (region.length / PARALLELISM) 0 (6 + 2) = none
    rw [chunkGo]
    rw [if_pos (by simpa using Nat.div_le_self region.length PARALLELISM)]
    rw [(memrchr_none_iff 10 _).mpr fun hc => hnl (List.mem_of_mem_take hc)]

/-- Witness for `chunk_at_newlines_lossless` on a 16-line region. -/
theorem chunk_at_newlines_lossless_witness :
    (chunk_at_newlines [97, 10, 98, 10, 99, 10, 100, 10, 101, 10, 102, 10, 103, 10,
        104, 10, 105, 10, 106, 10, 107, 10, 108, 10, 109, 10, 110, 10, 111, 10, 112] =
      some [[97], [98], [99], [100], [101], [102], [103],
        [104, 10, 105, 10, 106, 10, 107, 10, 108, 10, 109, 10, 110, 10, 111, 10, 112]]) ∧
    ([[97], [98], [99], [100], [101], [102], [103],
        [104, 10, 105, 10, 106, 10, 107, 10, 108, 10, 109, 10, 110, 10, 111, 10,
          112]].length = PARALLELISM ∧
      [97, 10, 98, 10, 99, 10, 100, 10, 101, 10, 102, 10, 103, 10, 104, 10, 105, 10,
          106, 10, 107, 10, 108, 10, 109, 10, 110, 10, 111, 10, 112] =
        joinNl [[97], [98], [99], [100], [101], [102], [103],
          [104, 10, 105, 10, 106, 10, 107, 10, 108, 10, 109, 10, 110, 10, 111, 10, 112]]) ∧
    (10 ∉ ([97, 98, 99] : List Nat) ∧ chunk_at_newlines [97, 98, 99] = none) :=
  ⟨by decide,
    chunk_at_newlines_lossless.1 _ _ (by decide),
    by decide,
    chunk_at_newlines_lossless.2 [97, 98, 99] (by decide)⟩

theorem foldl_update_merge (xs : List Int) (a b : Aggregation) :
    xs.foldl Aggregation.update (a.merge b) = a.merge (xs.foldl Aggregation.update b) := by
  induction xs generalizing b with
  | nil => rfl
  | cons x xs ih => rw [List.foldl_cons, List.foldl_cons, Aggregation.merge_update, ih]

theorem aggWF_new : AggWF Aggregation.new := by
  unfold AggWF Aggregation.new
  norm_num

theorem aggWF_update (a : Aggregation) (v : Int) (h : AggWF a) : AggWF (a.update v) := by
  unfold AggWF at h ⊢
  unfold Aggregation.update
  have := wrap32_range (a.sum + v)
  refine ⟨le_trans (min_le_left _ _) h.1, le_trans h.2.1 (le_max_left _ _), this, ?_⟩
  show (a.count + 1) % 4294967296 < 4294967296
  omega

theorem aggWF_foldl_update (xs : List Int) (a : Aggregation) (h : AggWF a) :
    AggWF (xs.foldl Aggregation.update a) := by
  induction xs generalizing a with
  | nil => exact h
  | cons x xs ih => exact ih _ (aggWF_update a x h)

theorem merge_new_right (a : Aggregation) (h : AggWF a) :
    a.merge Aggregation.new = a := by
  obtain ⟨h1, h2, ⟨h3, h4⟩, h5⟩ := h
  unfold Aggregation.merge Aggregation.new
  rcases a with ⟨amin, amax, asum, acount⟩
  simp only [Aggregation.mk.injEq]
  refine ⟨?_, ?_, ?_, ?_⟩
  · simp only at h1; omega
  · simp only at h2; omega
  · simp only at h3 h4
    rw [add_zero]
    exact wrap32_eq_self h3 h4
  · simp only at h5; omega

theorem merge_aggFold (l1 l2 : List Int) :
    (aggFold l1).merge (aggFold l2) = aggFold (l1 ++ l2) := by
  rw [aggFold, aggFold, aggFold, List.foldl_append, ← foldl_update_merge]
  rw [merge_new_right _ (aggWF_foldl_update _ _ aggWF_new)]

theorem count_foldl_update (vs : List Int) (a : Aggregation) (h : a.count < 4294967296) :
    (vs.foldl Aggregation.update a).count = (a.count + vs.length) % 4294967296 := by
  induction vs generalizing a with
  | nil => simp [Nat.mod_eq_of_lt h]
  | cons v vs ih =>
      rw [List.foldl_cons, ih _ (by show (a.count + 1) % 4294967296 < 4294967296; omega)]
      show ((a.count + 1) % 4294967296 + vs.length) % 4294967296 = _
      simp only [List.length_cons]
      omega

theorem combineO_nil (o : Option Aggregation) : combineO o [] = o := by
  rcases o with _ | a <;> rfl

theorem combineO_append (o : Option Aggregation) (v1 v2 : List Int) :
    combineO o (v1 ++ v2) = combineO (combineO o v1) v2 := by
  rcases o with _ | a
  · rcases v1 with _ | ⟨v, vs⟩
    · rfl
    · show combineO none ((v :: vs) ++ v2) = _
      rcases v2 with _ | ⟨w, ws⟩
      · rw [List.append_nil, combineO_nil]
      · show some (((v :: vs) ++ (w :: ws)).foldl Aggregation.update Aggregation.new) =
          some ((w :: ws).foldl Aggregation.update
            ((v :: vs).foldl Aggregation.update Aggregation.new))
        rw [List.foldl_append]
  · show some ((v1 ++ v2).foldl Aggregation.update a) =
      combineO (some (v1.foldl Aggregation.update a)) v2
    rw [List.foldl_append]
    rfl

theorem mergeO_none_right (o : Option Aggregation) : mergeO o none = o := by
  rcases o with _ | a <;> rfl

theorem mergeO_combineO_none (v1 v2 : List Int) :
    mergeO (combineO none v1) (combineO none v2) = combineO none (v1 ++ v2) := by
  rcases v1 with _ | ⟨v, vs⟩
  · rfl
  · rcases v2 with _ | ⟨w, ws⟩
    · rw [List.append_nil]
      rfl
    · show some ((aggFold (v :: vs)).merge (aggFold (w :: ws))) = _
      rw [merge_aggFold]
      rfl

theorem mergeO_assoc (a b c : Option Aggregation) :
    mergeO (mergeO a b) c = mergeO a (mergeO b c) := by
  rcases a with _ | a <;> rcases b with _ | b <;> rcases c with _ | c <;>
    simp [mergeO, Aggregation.merge_assoc]

theorem valsOf_append (l1 l2 : List (List Nat)) (name : List Nat) :
    valsOf (l1 ++ l2) name = valsOf l1 name ++ valsOf l2 name := by
  unfold valsOf
  rw [List.filterMap_append]

theorem aggFold_perm (l1 l2 : List Int) (h : List.Perm l1 l2) : aggFold l1 = aggFold l2 := by
  unfold aggFold
  exact h.foldl_eq' (fun x _ y _ a => Aggregation.update_right_comm a x y) Aggregation.new

theorem combineO_none_perm (v1 v2 : List Int) (h : List.Perm v1 v2) :
    combineO none v1 = combineO none v2 := by
  rcases v1 with _ | ⟨v, vs⟩
  · rw [List.Perm.nil_eq h]
  · rcases v2 with _ | ⟨w, ws⟩
    · exact absurd h.symm (by simp)
    · show some (aggFold (v :: vs)) = some (aggFold (w :: ws))
      rw [aggFold_perm _ _ h]

theorem regGet_none_iff (reg : Registry) (name : List Nat) :
    regGet reg name = none ↔ name ∉ regKeys reg := by
  induction reg with
  | nil => simp [regGet, regKeys]
  | cons p rest ih =>
      rw [regGet]
      by_cases hp : p.1 = name
      · simp [hp, regKeys]
      · rw [if_neg hp, ih]
        simp only [regKeys, List.map_cons, List.mem_cons]
        constructor
        · intro h hc
          rcases hc with hc | hc
          · exact hp hc.symm
          · exact h hc
        · intro h hc
          exact h (Or.inr hc)

theorem regUpd_get_self_found (reg : Registry) (n : List Nat) (v : Int)
    (a : Aggregation) (h : regGet reg n = some a) :
    regGet (regUpd reg n v) n = some (a.update v) := by
  induction reg with
  | nil => simp [regGet] at h
  | cons p rest ih =>
      rw [regGet] at h
      rw [regUpd]
      by_cases hp : p.1 = n
      · rw [if_pos hp] at h
        rw [if_pos hp, regGet, if_pos hp]
        injection h with h
        rw [h]
      · rw [if_neg hp] at h
        rw [if_neg hp, regGet, if_neg hp]
        exact ih h

theorem regUpd_get_self_new (reg : Registry) (n : List Nat) (v : Int)
    (h : regGet reg n = none) :
    regGet (regUpd reg n v) n = some (Aggregation.new.update v) := by
  induction reg with
  | nil => simp [regUpd, regGet]
  | cons p rest ih =>
      rw [regGet] at h
      rw [regUpd]
      by_cases hp : p.1 = n
      · rw [if_pos hp] at h
        exact Option.noConfusion h
      · rw [if_neg hp] at h
        rw [if_neg hp, regGet, if_neg hp]
        exact ih h

theorem regKeys_cons (p : List Nat × Aggregation) (rest : Registry) :
    regKeys (p :: rest) = p.1 :: regKeys rest := rfl

theorem regUpd_get_other (reg : Registry) (n m : List Nat) (v : Int) (h : m ≠ n) :
    regGet (regUpd reg n v) m = regGet reg m := by
  induction reg with
  | nil =>
      simp only [regUpd, regGet]
      rw [if_neg fun hc => h hc.symm]
  | cons p rest ih =>
      rw [regUpd]
      by_cases hp : p.1 = n
      · rw [if_pos hp, regGet, regGet]
        have : ¬ p.1 = m := by rw [hp]; exact fun hc => h hc.symm
        rw [if_neg this, if_neg this]
      · rw [if_neg hp, regGet, regGet]
        by_cases hm : p.1 = m
        · rw [if_pos hm, if_pos hm]
        · rw [if_neg hm, if_neg hm, ih]

theorem regKeys_regUpd_mem (reg : Registry) (n : List Nat) (v : Int)
    (h : n ∈ regKeys reg) : regKeys (regUpd reg n v) = regKeys reg := by
  induction reg with
  | nil => simp [regKeys] at h
  | cons p rest ih =>
      rw [regUpd]
      by_cases hp : p.1 = n
      · rw [if_pos hp]
        simp [regKeys, hp]
      · rw [if_neg hp]
        rw [regKeys_cons, regKeys_cons]
        rw [regKeys_cons] at h
        rcases List.mem_cons.mp h with hc | hc
        · exact absurd hc.symm hp
        · rw [ih hc]

theorem regKeys_regUpd_not_mem (reg : Registry) (n : List Nat) (v : Int)
    (h : n ∉ regKeys reg) : regKeys (regUpd reg n v) = regKeys reg ++ [n] := by
  induction reg with
  | nil => simp [regKeys, regUpd]
  | cons p rest ih =>
      rw [regUpd]
      by_cases hp : p.1 = n
      · exact absurd (by simp [regKeys, hp]) h
      · rw [if_neg hp]
        rw [regKeys_cons, regKeys_cons, List.cons_append]
        rw [ih fun hc => h (by simp [regKeys] at hc ⊢; right; exact hc)]

theorem regUpd_nodup (reg : Registry) (n : List Nat) (v : Int)
    (h : (regKeys reg).Nodup) : (regKeys (regUpd reg n v)).Nodup := by
  by_cases hm : n ∈ regKeys reg
  · rw [regKeys_regUpd_mem reg n v hm]; exact h
  · rw [regKeys_regUpd_not_mem reg n v hm]
    simp [List.nodup_append, h, hm]

theorem mem_iff_regGet (reg : Registry) (hnd : (regKeys reg).Nodup)
    (p : List Nat × Aggregation) : p ∈ reg ↔ regGet reg p.1 = some p.2 := by
  induction reg with
  | nil => simp [regGet]
  | cons q rest ih =>
      simp only [regKeys, List.map_cons, List.nodup_cons] at hnd
      rw [regGet, List.mem_cons]
      by_cases hq : q.1 = p.1
      · rw [if_pos hq]
        constructor
        · intro h
          rcases h with h | h
          · rw [h]
          · exfalso
            apply hnd.1
            rw [hq]
            exact List.mem_map_of_mem Prod.fst h
        · intro h
          left
          have h2 : q.2 = p.2 := by injection h
          exact Prod.ext hq.symm h2.symm
      · rw [if_neg hq]
        rw [ih hnd.2]
        constructor
        · intro h
          rcases h with h | h
          · exact absurd (congrArg Prod.fst h.symm) hq
          · exact h
        · intro h
          exact Or.inr h

theorem combineO_none_cons (v : Int) (vs : List Int) :
    combineO none (v :: vs) = combineO (some (Aggregation.new.update v)) vs := rfl

theorem combineO_some_cons (a : Aggregation) (v : Int) (vs : List Int) :
    combineO (some a) (v :: vs) = combineO (some (a.update v)) vs := rfl

theorem valsOf_cons_hit (l : List Nat) (ls : List (List Nat)) (name : List Nat)
    (nv : List Nat × Int) (hp : parse_line l = some nv) (hn : nv.1 = name) :
    valsOf (l :: ls) name = nv.2 :: valsOf ls name := by
  unfold valsOf
  rw [List.filterMap_cons, hp]
  simp [hn]

theorem valsOf_cons_miss (l : List Nat) (ls : List (List Nat)) (name : List Nat)
    (nv : List Nat × Int) (hp : parse_line l = some nv) (hn : nv.1 ≠ name) :
    valsOf (l :: ls) name = valsOf ls name := by
  unfold valsOf
  rw [List.filterMap_cons, hp]
  simp [hn]

theorem processLines_get (lines : List (List Nat)) :
    ∀ reg reg', processLines reg lines = some reg' →
      ∀ name, regGet reg' name = combineO (regGet reg name) (valsOf lines name) := by
  induction lines with
  | nil =>
      intro reg reg' h name
      rw [processLines] at h
      injection h with h
      subst h
      rw [show valsOf [] name = [] from rfl, combineO_nil]
  | cons l ls ih =>
      intro reg reg' h name
      rw [processLines] at h
      rcases hp : process_line reg l with _ | reg1
      · rw [hp] at h; exact Option.noConfusion h
      · rw [hp] at h
        rcases hpl : parse_line l with _ | nv
        · rw [process_line, hpl] at hp; exact Option.noConfusion hp
        · rw [process_line, hpl, Option.map_some'] at hp
          injection hp with hp
          subst hp
          rw [ih _ _ h name]
          by_cases hn : nv.1 = name
          · subst hn
            rw [valsOf_cons_hit l ls nv.1 nv hpl rfl]
            rcases hg : regGet reg nv.1 with _ | a
            · rw [combineO_none_cons, regUpd_get_self_new reg nv.1 nv.2 hg]
            · rw [combineO_some_cons, regUpd_get_self_found reg nv.1 nv.2 a hg]
          · rw [valsOf_cons_miss l ls name nv hpl hn]
            rw [regUpd_get_other reg nv.1 name nv.2 fun hc => hn hc.symm]

theorem processLines_append (xs ys : List (List Nat)) (reg : Registry) :
    processLines reg (xs ++ ys) =
      match processLines reg xs with
      | none => none
      | some r => processLines r ys := by
  induction xs generalizing reg with
  | nil => rw [List.nil_append, processLines]
  | cons l ls ih =>
      rw [List.cons_append, processLines, processLines]
      rcases process_line reg l with _ | reg1
      · rfl
      · exact ih reg1

theorem processLines_nodup (lines : List (List Nat)) :
    ∀ reg reg', processLines reg lines = some reg' →
      (regKeys reg).Nodup → (regKeys reg').Nodup := by
  induction lines with
  | nil =>
      intro reg reg' h hnd
      rw [processLines] at h
      injection h with h
      exact h ▸ hnd
  | cons l ls ih =>
      intro reg reg' h hnd
      rw [processLines] at h
      rcases hp : process_line reg l with _ | reg1
      · rw [hp] at h; exact Option.noConfusion h
      · rw [hp] at h
        rcases hpl : parse_line l with _ | nv
        · rw [process_line, hpl] at hp; exact Option.noConfusion hp
        · rw [process_line, hpl, Option.map_some'] at hp
          injection hp with hp
          subst hp
          exact ih _ _ h (regUpd_nodup reg nv.1 nv.2 hnd)

theorem processLines_parses (lines : List (List Nat)) :
    ∀ reg reg', processLines reg lines = some reg' →
      ∀ l ∈ lines, parse_line l ≠ none := by
  induction lines with
  | nil => intro reg reg' _ l hl; simp at hl
  | cons x ls ih =>
      intro reg reg' h l hl
      rw [processLines] at h
      rcases hp : process_line reg x with _ | reg1
      · rw [hp] at h; exact Option.noConfusion h
      · rw [hp] at h
        rcases List.mem_cons.mp hl with hc | hc
        · subst hc
          intro hnone
          rw [process_line, hnone] at hp
          exact Option.noConfusion hp
        · exact ih _ _ h l hc

theorem processLines_total (lines : List (List Nat)) :
    ∀ reg, (∀ l ∈ lines, parse_line l ≠ none) →
      ∃ reg', processLines reg lines = some reg' := by
  induction lines with
  | nil => intro reg _; exact ⟨reg, rfl⟩
  | cons x ls ih =>
      intro reg hall
      rcases hpl : parse_line x with _ | nv
      · exact absurd hpl (hall x (List.mem_cons_self x ls))
      · obtain ⟨reg', h⟩ := ih (regUpd reg nv.1 nv.2)
          fun l hl => hall l (List.mem_cons_of_mem x hl)
        refine ⟨reg', ?_⟩
        rw [processLines, process_line, hpl, Option.map_some']
        exact h

theorem regMergeIns_get_found (acc : Registry) (n : List Nat) (ag : Aggregation)
    (x : Aggregation) (h : regGet acc n = some x) :
    regGet (regMergeIns acc n ag) n = some (x.merge ag) := by
  induction acc with
  | nil => simp [regGet] at h
  | cons p rest ih =>
      rw [regGet] at h
      rw [regMergeIns]
      by_cases hp : p.1 = n
      · rw [if_pos hp] at h
        rw [if_pos hp, regGet, if_pos hp]
        injection h with h
        rw [h]
      · rw [if_neg hp] at h
        rw [if_neg hp, regGet, if_neg hp]
        exact ih h

theorem regMergeIns_get_new (acc : Registry) (n : List Nat) (ag : Aggregation)
    (h : regGet acc n = none) :
    regGet (regMergeIns acc n ag) n = some ag := by
  induction acc with
  | nil => simp [regMergeIns, regGet]
  | cons p rest ih =>
      rw [regGet] at h
      rw [regMergeIns]
      by_cases hp : p.1 = n
      · rw [if_pos hp] at h
        exact Option.noConfusion h
      · rw [if_neg hp] at h
        rw [if_neg hp, regGet, if_neg hp]
        exact ih h

theorem regMergeIns_get_other (acc : Registry) (n m : List Nat) (ag : Aggregation)
    (h : m ≠ n) : regGet (regMergeIns acc n ag) m = regGet acc m := by
  induction acc with
  | nil =>
      simp only [regMergeIns, regGet]
      rw [if_neg fun hc => h hc.symm]
  | cons p rest ih =>
      rw [regMergeIns]
      by_cases hp : p.1 = n
      · rw [if_pos hp, regGet, regGet]
        have : ¬ p.1 = m := by rw [hp]; exact fun hc => h hc.symm
        rw [if_neg this, if_neg this]
      · rw [if_neg hp, regGet, regGet]
        by_cases hm : p.1 = m
        · rw [if_pos hm, if_pos hm]
        · rw [if_neg hm, if_neg hm, ih]

theorem regKeys_regMergeIns_mem (acc : Registry) (n : List Nat) (ag : Aggregation)
    (h : n ∈ regKeys acc) : regKeys (regMergeIns acc n ag) = regKeys acc := by
  induction acc with
  | nil => simp [regKeys] at h
  | cons p rest ih =>
      rw [regMergeIns]
      by_cases hp : p.1 = n
      · rw [if_pos hp]
        simp [regKeys, hp]
      · rw [if_neg hp]
        rw [regKeys_cons, regKeys_cons]
        rw [regKeys_cons] at h
        rcases List.mem_cons.mp h with hc | hc
        · exact absurd hc.symm hp
        · rw [ih hc]

theorem regKeys_regMergeIns_not_mem (acc : Registry) (n : List Nat) (ag : Aggregation)
    (h : n ∉ regKeys acc) : regKeys (regMergeIns acc n ag) = regKeys acc ++ [n] := by
  induction acc with
  | nil => simp [regKeys, regMergeIns]
  | cons p rest ih =>
      rw [regMergeIns]
      by_cases hp : p.1 = n
      · exact absurd (by simp [regKeys, hp]) h
      · rw [if_neg hp]
        rw [regKeys_cons, regKeys_cons, List.cons_append]
        rw [ih fun hc => h (by simp [regKeys] at hc ⊢; right; exact hc)]

theorem regMergeIns_nodup (acc : Registry) (n : List Nat) (ag : Aggregation)
    (h : (regKeys acc).Nodup) : (regKeys (regMergeIns acc n ag)).Nodup := by
  by_cases hm : n ∈ regKeys acc
  · rw [regKeys_regMergeIns_mem acc n ag hm]; exact h
  · rw [regKeys_regMergeIns_not_mem acc n ag hm]
    simp [List.nodup_append, h, hm]

theorem regMerge_get (b : Registry) :
    ∀ a, (regKeys b).Nodup →
      (∀ name, regGet (regMerge a b) name = mergeO (regGet a name) (regGet b name)) := by
  induction b with
  | nil =>
      intro a _ name
      rw [show regMerge a [] = a from rfl]
      rw [show regGet ([] : Registry) name = none from rfl, mergeO_none_right]
  | cons p rest ih =>
      intro a hnd name
      rw [regKeys_cons, List.nodup_cons] at hnd
      rw [show regMerge a (p :: rest) = regMerge (regMergeIns a p.1 p.2) rest from rfl]
      rw [ih _ hnd.2 name]
      by_cases hn : p.1 = name
      · subst hn
        rw [(regGet_none_iff rest p.1).mpr hnd.1, mergeO_none_right]
        rw [regGet, if_pos rfl]
        rcases hg : regGet a p.1 with _ | x
        · rw [regMergeIns_get_new a p.1 p.2 hg]
          rfl
        · rw [regMergeIns_get_found a p.1 p.2 x hg]
          rfl
      · rw [regMergeIns_get_other a p.1 name p.2 fun hc => hn hc.symm]
        rw [regGet, if_neg hn]

theorem regMerge_nodup (b : Registry) :
    ∀ a, (regKeys a).Nodup → (regKeys (regMerge a b)).Nodup := by
  induction b with
  | nil => intro a h; exact h
  | cons p rest ih =>
      intro a h
      rw [show regMerge a (p :: rest) = regMerge (regMergeIns a p.1 p.2) rest from rfl]
      exact ih _ (regMergeIns_nodup a p.1 p.2 h)

theorem foldl_regMerge_char (rs : List Registry) :
    ∀ (Lss : List (List (List Nat))) (r : Registry) (Lacc : List (List Nat)),
      RegsOf Lss rs →
      (∀ name, regGet r name = combineO none (valsOf Lacc name)) →
      (regKeys r).Nodup →
      (∀ name, regGet (rs.foldl regMerge r) name =
        combineO none (valsOf (Lacc ++ Lss.flatten) name)) ∧
        (regKeys (rs.foldl regMerge r)).Nodup := by
  induction rs with
  | nil =>
      intro Lss r Lacc hf hchar hnd
      cases hf
      simp only [List.foldl_nil, List.flatten_nil, List.append_nil]
      exact ⟨hchar, hnd⟩
  | cons reg' rs' ih =>
      intro Lss r Lacc hf hchar hnd
      cases hf with
      | cons hrel hf' =>
        rename_i L' Lss'
        rw [List.foldl_cons]
        have hnd' : (regKeys reg').Nodup :=
          processLines_nodup L' [] reg' hrel (by simp [regKeys])
        have hchar' : ∀ name, regGet reg' name = combineO none (valsOf L' name) := by
          intro name
          rw [processLines_get L' [] reg' hrel name]
          rfl
        have hmchar : ∀ name, regGet (regMerge r reg') name =
            combineO none (valsOf (Lacc ++ L') name) := by
          intro name
          rw [regMerge_get reg' r hnd' name, hchar name, hchar' name,
            mergeO_combineO_none, valsOf_append]
        obtain ⟨hget, hndout⟩ := ih Lss' (regMerge r reg') (Lacc ++ L') hf' hmchar
          (regMerge_nodup reg' r hnd)
        refine ⟨fun name => ?_, hndout⟩
        rw [hget name]
        rw [List.flatten_cons, ← List.append_assoc]

theorem splitNl_ne_nil (l : List Nat) : splitNl l ≠ [] := by
  induction l with
  | nil => simp [splitNl]
  | cons b bs ih =>
      rw [splitNl]
      by_cases hb : b = 10
      · simp [hb]
      · rw [if_neg hb]
        rcases h : splitNl bs with _ | ⟨x, xs⟩
        · simp
        · simp

theorem splitNl_append_newline (a b : List Nat) :
    splitNl (a ++ 10 :: b) = splitNl a ++ splitNl b := by
  induction a with
  | nil => simp [splitNl]
  | cons x xs ih =>
      rw [List.cons_append, splitNl, splitNl]
      by_cases hx : x = 10
      · rw [if_pos hx, if_pos hx, ih, List.cons_append]
      · rw [if_neg hx, if_neg hx, ih]
        rcases h : splitNl xs with _ | ⟨l, ls⟩
        · exact absurd h (splitNl_ne_nil xs)
        · rfl

theorem splitNl_joinNl (cs : List (List Nat)) (h : cs ≠ []) :
    splitNl (joinNl cs) = (cs.map splitNl).flatten := by
  induction cs with
  | nil => exact absurd rfl h
  | cons c rest ih =>
      rcases hr : rest with _ | ⟨c2, rest2⟩
      · simp [joinNl]
      · rw [← hr]
        have hrne : rest ≠ [] := by rw [hr]; simp
        rw [joinNl_cons c rest hrne, splitNl_append_newline, ih hrne,
          List.map_cons, List.flatten_cons]

theorem processRound_lengths (regs : List Registry) :
    ∀ chunks regs', processRound regs chunks = some regs' →
      chunks.length = regs.length ∧ regs'.length = regs.length := by
  induction regs with
  | nil =>
      intro chunks regs' h
      rcases chunks with _ | ⟨c, cs⟩
      · rw [processRound] at h
        injection h with h
        simp [← h]
      · simp [processRound] at h
  | cons r rs ih =>
      intro chunks regs' h
      rcases chunks with _ | ⟨c, cs⟩
      · simp [processRound] at h
      · rw [processRound] at h
        rcases h1 : processChunk r c with _ | r1
        · rw [h1] at h; exact Option.noConfusion h
        · rw [h1] at h
          rcases h2 : processRound rs cs with _ | rs1
          · rw [h2] at h; exact Option.noConfusion h
          · rw [h2] at h
            injection h with h
            obtain ⟨hl1, hl2⟩ := ih cs rs1 h2
            subst h
            simp [hl1, hl2]

theorem processRound_regsOf (regs : List Registry) :
    ∀ chunks regs' Ls, RegsOf Ls regs → processRound regs chunks = some regs' →
      RegsOf (List.zipWith (fun L c => L ++ splitNl c) Ls chunks) regs' := by
  induction regs with
  | nil =>
      intro chunks regs' Ls hf h
      rcases chunks with _ | ⟨c, cs⟩
      · rw [processRound] at h
        injection h with h
        cases hf
        subst h
        exact List.Forall₂.nil
      · simp [processRound] at h
  | cons r rs ih =>
      intro chunks regs' Ls hf h
      rcases chunks with _ | ⟨c, cs⟩
      · simp [processRound] at h
      · rw [processRound] at h
        rcases h1 : processChunk r c with _ | r1
        · rw [h1] at h; exact Option.noConfusion h
        · rw [h1] at h
          rcases h2 : processRound rs cs with _ | rs1
          · rw [h2] at h; exact Option.noConfusion h
          · rw [h2] at h
            injection h with h
            subst h
            cases hf with
            | cons hrel hf' =>
              rename_i L Ls'
              rw [List.zipWith_cons_cons]
              refine List.Forall₂.cons ?_ (ih cs rs1 Ls' hf' h2)
              rw [processLines_append, hrel]
              exact h1

theorem flatten_zipWith_perm (Ls : List (List (List Nat))) :
    ∀ Cs : List (List Nat), Ls.length = Cs.length →
      List.Perm (List.zipWith (fun L c => L ++ splitNl c) Ls Cs).flatten
        (Ls.flatten ++ (Cs.map splitNl).flatten) := by
  induction Ls with
  | nil =>
      intro Cs h
      rcases Cs with _ | ⟨c, cs⟩
      · simp
      · simp at h
  | cons L Ls' ih =>
      intro Cs h
      rcases Cs with _ | ⟨c, cs⟩
      · simp at h
      · simp only [List.zipWith_cons_cons, List.flatten_cons, List.map_cons,
          List.append_assoc]
        refine List.Perm.trans
          (List.Perm.append_left L (List.Perm.append_left (splitNl c)
            (ih cs (by simpa using h)))) ?_
        exact List.Perm.append_left L
          (List.perm_append_comm_assoc (splitNl c) Ls'.flatten (cs.map splitNl).flatten)

theorem getLast?_append_of_ne_nil (a b : List Nat) (h : b ≠ []) :
    (a ++ b).getLast? = b.getLast? := by
  rw [List.getLast?_append]
  rcases hb : b.getLast? with _ | x
  · exact absurd (List.getLast?_eq_none_iff.mp hb) h
  · rfl

theorem memrchr_append_no (b : Nat) (xs ys : List Nat) (h : b ∉ ys) :
    memrchr b (xs ++ ys) = memrchr b xs := by
  induction xs with
  | nil =>
      rw [List.nil_append, (memrchr_none_iff b ys).mpr h]
      rfl
  | cons x rest ih =>
      rw [List.cons_append, memrchr, ih, memrchr]

theorem memrchr_append_singleton (b : Nat) (xs : List Nat) :
    memrchr b (xs ++ [b]) = some xs.length := by
  induction xs with
  | nil => simp [memrchr]
  | cons x rest ih =>
      rw [List.cons_append, memrchr, ih]
      rfl

theorem memrchr_getLast (l : List Nat) (b : Nat) (h : l.getLast? = some b) :
    memrchr b l = some (l.length - 1) := by
  have hne : l ≠ [] := by
    intro h0
    rw [h0] at h
    exact Option.noConfusion h
  have hlast : l.getLast hne = b := by
    have := List.getLast?_eq_getLast l hne
    rw [h] at this
    injection this with this
    exact this.symm
  conv_lhs => rw [← List.dropLast_append_getLast hne, hlast]
  rw [memrchr_append_singleton, List.length_dropLast]

theorem memrchr_after (b : Nat) (l : List Nat) :
    ∀ j, memrchr b l = some j → b ∉ l.drop (j + 1) := by
  induction l with
  | nil => intro j h; simp [memrchr] at h
  | cons x xs ih =>
      intro j h
      rw [memrchr] at h
      rcases hm : memrchr b xs with _ | i
      · rw [hm] at h
        by_cases hx : x = b
        · rw [if_pos hx] at h
          injection h with h
          subst h
          rw [List.drop_succ_cons, List.drop_zero]
          exact (memrchr_none_iff b xs).mp hm
        · rw [if_neg hx] at h
          exact Option.noConfusion h
      · rw [hm] at h
        injection h with h
        subst h
        rw [List.drop_succ_cons]
        exact ih i hm

theorem mem_of_getLast?_eq (l : List Nat) (b : Nat) (h : l.getLast? = some b) :
    b ∈ l := by
  obtain ⟨hne, heq⟩ := List.mem_getLast?_eq_getLast (Option.mem_def.mpr h)
  rw [heq]
  exact List.getLast_mem hne

theorem dropLast_cons_ne_nil (x : Nat) (l : List Nat) (h : l ≠ []) :
    (x :: l).dropLast = x :: l.dropLast := by
  rcases l with _ | ⟨y, ys⟩
  · exact absurd rfl h
  · rfl

theorem streamLoop_lines (fuel : Nat) :
    ∀ (fileRem working : List Nat) (loadCap : Nat)
      (regs out : List Registry) (Ls : List (List (List Nat))),
      streamLoop fuel fileRem working loadCap regs = some out →
      RegsOf Ls regs →
      (working ++ fileRem).getLast? = some 10 →
      (fileRem ≠ [] → working.length = loadCap) →
      ∃ Ls', RegsOf Ls' out ∧
        List.Perm Ls'.flatten
          (Ls.flatten ++ splitNl ((working ++ fileRem).dropLast)) := by
  induction fuel with
  | zero =>
      intro _ _ _ _ _ _ h
      rw [streamLoop] at h
      exact absurd h (by simp)
  | succ n ih =>
      intro fileRem working loadCap regs out Ls h hregs hlast hcap
      rw [streamLoop] at h
      rcases hm : memrchr 10 working with _ | j
      · rw [hm] at h; exact Option.noConfusion h
      rw [hm] at h
      simp only [] at h
      rcases hc : chunk_at_newlines (working.take j) with _ | chunks
      · rw [hc] at h; exact Option.noConfusion h
      rw [hc] at h
      simp only [] at h
      rcases hr : processRound regs chunks with _ | regs'
      · rw [hr] at h; exact Option.noConfusion h
      rw [hr] at h
      simp only [] at h
      obtain ⟨hj, hworking⟩ := memrchr_some_split 10 working j hm
      obtain ⟨hclen, hjoin⟩ := by
        rw [chunk_at_newlines] at hc
        exact chunkGo_joinNl (working.take j) (((working.take j)).length / PARALLELISM)
          PARALLELISM 0 chunks (by norm_num [PARALLELISM]) hc
      rw [List.drop_zero] at hjoin
      have hchne : chunks ≠ [] := by
        intro h0
        rw [h0] at hclen
        simp [PARALLELISM] at hclen
      have hLlen : Ls.length = chunks.length := by
        rw [List.Forall₂.length_eq hregs]
        exact ((processRound_lengths regs chunks regs' hr).1).symm
      have hround : RegsOf (List.zipWith (fun L c => L ++ splitNl c) Ls chunks) regs' :=
        processRound_regsOf regs chunks regs' Ls hregs hr
      have hflat2 : List.Perm
          (List.zipWith (fun L c => L ++ splitNl c) Ls chunks).flatten
          (Ls.flatten ++ splitNl (working.take j)) := by
        refine List.Perm.trans (flatten_zipWith_perm Ls chunks hLlen) ?_
        rw [← splitNl_joinNl chunks hchne, ← hjoin]
      by_cases hrl : (working.drop (j + 1)).length ≤ loadCap
      · rw [if_pos hrl] at h
        by_cases hread : (fileRem.take (loadCap - (working.drop (j + 1)).length)).length = 0
        · rw [if_pos hread] at h
          injection h with h
          subst h
          have hfr : fileRem = [] := by
            rcases hfr : fileRem with _ | ⟨x, xs⟩
            · rfl
            · exfalso
              rw [hfr] at hread hcap
              have hwl : working.length = loadCap := hcap (by simp)
              rw [List.length_take, List.length_drop] at hread
              simp only [List.length_cons] at hread
              omega
          have hrem : working.drop (j + 1) = [] := by
            rcases hdr : working.drop (j + 1) with _ | ⟨y, ys⟩
            · rfl
            · exfalso
              have hlast2 : working.getLast? = some 10 := by
                rw [hfr, List.append_nil] at hlast
                exact hlast
              have hgl : working.getLast? = (working.drop (j + 1)).getLast? := by
                conv_lhs => rw [← List.take_append_drop (j + 1) working]
                exact getLast?_append_of_ne_nil _ _ (by rw [hdr]; simp)
              have h10 : (10 : Nat) ∈ working.drop (j + 1) :=
                mem_of_getLast?_eq _ _ (by rw [← hgl]; exact hlast2)
              exact memrchr_after 10 working j hm h10
          refine ⟨List.zipWith (fun L c => L ++ splitNl c) Ls chunks, hround, ?_⟩
          rw [hfr, List.append_nil]
          have hwshape : working = working.take j ++ [10] := by
            conv_lhs => rw [hworking]
            rw [hrem]
          have hdl : working.dropLast = working.take j := by
            conv_lhs => rw [hwshape]
            rw [List.dropLast_concat]
          rw [hdl]
          exact hflat2
        · rw [if_neg hread] at h
          have hfrne : fileRem ≠ [] := by
            intro h0
            rw [h0] at hread
            simp at hread
          have hwl : working.length = loadCap := hcap hfrne
          set readN := (fileRem.take (loadCap - (working.drop (j + 1)).length)).length
            with hreadN
          have htakedrop : fileRem.take (loadCap - (working.drop (j + 1)).length) ++
              fileRem.drop readN = fileRem := by
            rw [hreadN]
            conv_rhs => rw [← List.take_append_drop
              (loadCap - (working.drop (j + 1)).length) fileRem]
            congr 1
            rw [List.length_take]
            rcases Nat.le_total (loadCap - (working.drop (j + 1)).length)
              fileRem.length with hle | hle
            · rw [min_eq_left hle]
            · rw [min_eq_right hle,
                List.drop_eq_nil_of_le (le_refl fileRem.length),
                List.drop_eq_nil_of_le hle]
          have hFrest : (working.drop (j + 1) ++
              fileRem.take (loadCap - (working.drop (j + 1)).length)) ++
              fileRem.drop readN = working.drop (j + 1) ++ fileRem := by
            rw [List.append_assoc, htakedrop]
          have hFrestne : working.drop (j + 1) ++ fileRem ≠ [] := by
            intro h0
            rcases List.append_eq_nil.mp h0 with ⟨_, h2⟩
            exact hfrne h2
          have hlastSide : ((working.drop (j + 1) ++
              fileRem.take (loadCap - (working.drop (j + 1)).length)) ++
              fileRem.drop readN).getLast? = some 10 := by
            rw [hFrest]
            conv_rhs => rw [← hlast]
            rw [show working ++ fileRem =
              working.take (j + 1) ++ (working.drop (j + 1) ++ fileRem) from by
                rw [← List.append_assoc, List.take_append_drop]]
            rw [getLast?_append_of_ne_nil _ _ hFrestne]
          have hcapSide : fileRem.drop readN ≠ [] →
              (working.drop (j + 1) ++
                fileRem.take (loadCap - (working.drop (j + 1)).length)).length =
                working.length := by
            intro hfr'
            have hrd : readN < fileRem.length := by
              by_contra hge
              push_neg at hge
              exact hfr' (List.drop_eq_nil_of_le hge)
            rw [List.length_append, List.length_take, List.length_drop]
            rw [hreadN, List.length_take, List.length_drop] at hrd
            rw [List.length_drop] at hrl
            omega
          obtain ⟨Ls'', hregs'', hperm''⟩ := ih (fileRem.drop readN)
            (working.drop (j + 1) ++ fileRem.take (loadCap - (working.drop (j + 1)).length))
            working.length regs' out
            (List.zipWith (fun L c => L ++ splitNl c) Ls chunks) h hround hlastSide hcapSide
          refine ⟨Ls'', hregs'', ?_⟩
          rw [hFrest] at hperm''
          have hF : working ++ fileRem =
              working.take j ++ 10 :: (working.drop (j + 1) ++ fileRem) := by
            conv_lhs => rw [hworking]
            rw [List.append_assoc, List.cons_append]
          have hdropF : (working ++ fileRem).dropLast =
              working.take j ++ 10 :: (working.drop (j + 1) ++ fileRem).dropLast := by
            rw [hF, List.dropLast_append_of_ne_nil _ (by simp [hFrestne]),
              dropLast_cons_ne_nil _ _ hFrestne]
          rw [hdropF, splitNl_append_newline]
          refine List.Perm.trans hperm'' ?_
          refine List.Perm.trans (List.Perm.append_right _ hflat2) ?_
          simp only [List.append_assoc]
          exact List.Perm.refl _
      · rw [if_neg hrl] at h
        exact Option.noConfusion h

theorem regsOf_replicate_nil (n : Nat) :
    RegsOf (List.replicate n ([] : List (List Nat))) (List.replicate n ([] : Registry)) := by
  induction n with
  | zero => exact List.Forall₂.nil
  | succ m ih =>
      rw [List.replicate_succ, List.replicate_succ]
      exact List.Forall₂.cons rfl ih

theorem streamPipeline_onebuf (B : Nat) (file : List Nat) (j : Nat)
    (hB : file.length ≤ B) (hm : memrchr 10 file = some j) :
    streamPipeline B file =
      match chunk_at_newlines (file.take j) with
      | none => none
      | some chunks =>
          match processRound (List.replicate PARALLELISM []) chunks with
          | none => none
          | some regs =>
              match reduceRegs regs with
              | none => none
              | some merged => finalize merged := by
  obtain ⟨hj, _⟩ := memrchr_some_split 10 file j hm
  have ht : file.take B = file := List.take_of_length_le hB
  have hdropB : file.drop B = [] := List.drop_eq_nil_of_le hB
  have hnotpad : (10 : Nat) ∉ List.replicate (B - file.length) 0 := by
    intro hc
    have := List.eq_of_mem_replicate hc
    omega
  rw [streamPipeline, ht]
  rw [streamLoop]
  rw [memrchr_append_no 10 file _ hnotpad, hm]
  simp only []
  have htake : (file ++ List.replicate (B - file.length) 0).take j = file.take j :=
    List.take_append_of_le_length (le_of_lt hj)
  rw [htake]
  rcases hc : chunk_at_newlines (file.take j) with _ | chunks
  · rfl
  simp only []
  rcases hr : processRound (List.replicate PARALLELISM []) chunks with _ | regs'
  · rfl
  simp only []
  have hrlen : ((file ++ List.replicate (B - file.length) 0).drop (j + 1)).length ≤ B := by
    rw [List.length_drop, List.length_append, List.length_replicate]
    omega
  rw [if_pos hrlen, hdropB]
  simp [List.take_nil]

theorem lleb_total (a : List Nat) : ∀ b, lleb a b = true ∨ lleb b a = true := by
  induction a with
  | nil => intro b; left; rfl
  | cons x xs ih =>
      intro b
      rcases b with _ | ⟨y, ys⟩
      · right; rfl
      · rw [lleb, lleb]
        by_cases hxy : x < y
        · left
          rw [if_pos hxy]
        · by_cases hyx : y < x
          · right
            rw [if_pos hyx]
          · rw [if_neg hxy, if_neg hyx, if_neg hyx, if_neg hxy]
            exact ih ys

theorem lleb_trans (a : List Nat) : ∀ b c, lleb a b = true → lleb b c = true →
    lleb a c = true := by
  induction a with
  | nil => intro b c _ _; rfl
  | cons x xs ih =>
      intro b c hab hbc
      rcases b with _ | ⟨y, ys⟩
      · rw [lleb] at hab
        exact absurd hab (by simp)
      · rcases c with _ | ⟨z, zs⟩
        · rw [lleb] at hbc
          exact absurd hbc (by simp)
        · rw [lleb] at hab hbc ⊢
          by_cases hxy : x < y <;> by_cases hyz : y < z
          · rw [if_pos (lt_trans hxy hyz)]
          · simp only [if_pos hxy] at hab
            by_cases hzy : z < y
            · rw [if_neg hyz, if_pos hzy] at hbc
              exact absurd hbc (by simp)
            · have hyz2 : y = z := by omega
              rw [if_pos (hyz2 ▸ hxy)]
          · simp only [if_neg hxy] at hab
            by_cases hyx : y < x
            · rw [if_pos hyx] at hab
              exact absurd hab (by simp)
            · have hxy2 : x = y := by omega
              rw [if_pos (hxy2 ▸ hyz)]
          · by_cases hyx : y < x
            · rw [if_neg hxy, if_pos hyx] at hab
              exact absurd hab (by simp)
            · by_cases hzy : z < y
              · rw [if_neg hyz, if_pos hzy] at hbc
                exact absurd hbc (by simp)
              · have hxy2 : x = y := by omega
                have hyz2 : y = z := by omega
                rw [if_neg hxy, if_neg hyx] at hab
                rw [if_neg hyz, if_neg hzy] at hbc
                subst hxy2
                rw [if_neg (by omega), if_neg (by omega)]
                exact ih ys zs hab hbc

theorem lleb_antisymm (a : List Nat) : ∀ b, lleb a b = true → lleb b a = true →
    a = b := by
  induction a with
  | nil =>
      intro b _ hba
      rcases b with _ | ⟨y, ys⟩
      · rfl
      · rw [lleb] at hba
        exact absurd hba (by simp)
  | cons x xs ih =>
      intro b hab hba
      rcases b with _ | ⟨y, ys⟩
      · rw [lleb] at hab
        exact absurd hab (by simp)
      · rw [lleb] at hab hba
        by_cases hxy : x < y
        · rw [if_neg (by omega), if_pos hxy] at hba
          exact absurd hba (by simp)
        · by_cases hyx : y < x
          · rw [if_pos hyx] at hba
            rw [if_neg hxy, if_pos hyx] at hab
            exact absurd hab (by simp)
          · have hxy2 : x = y := by omega
            subst hxy2
            rw [if_neg hxy, if_neg hyx] at hab hba
            rw [ih ys hab hba]

instance : IsTotal (List Nat × Aggregation) pairLe :=
  ⟨fun p q => lleb_total p.1 q.1⟩

instance : IsTrans (List Nat × Aggregation) pairLe :=
  ⟨fun p q r => lleb_trans p.1 q.1 r.1⟩

theorem sorted_unique (l1 : List (List Nat × Aggregation)) :
    ∀ l2, List.Perm l1 l2 → l1.Sorted pairLe → l2.Sorted pairLe →
      (l1.map Prod.fst).Nodup → l1 = l2 := by
  induction l1 with
  | nil =>
      intro l2 hp _ _ _
      exact List.Perm.nil_eq hp
  | cons p t1 ih =>
      intro l2 hp h1 h2 hnd
      rcases l2 with _ | ⟨q, t2⟩
      · exact absurd hp.symm (by simp)
      · by_cases hpq : p = q
        · subst hpq
          rw [List.map_cons, List.nodup_cons] at hnd
          rw [ih t2 (List.Perm.cons_inv hp) (List.Sorted.of_cons h1)
            (List.Sorted.of_cons h2) hnd.2]
        · exfalso
          have hqmem : q ∈ p :: t1 := hp.symm.subset (List.mem_cons_self q t2)
          have hpmem : p ∈ q :: t2 := hp.subset (List.mem_cons_self p t1)
          have hq1 : q ∈ t1 := by
            rcases List.mem_cons.mp hqmem with hc | hc
            · exact absurd hc.symm hpq
            · exact hc
          have hp2 : p ∈ t2 := by
            rcases List.mem_cons.mp hpmem with hc | hc
            · exact absurd hc hpq
            · exact hc
          have hle1 : pairLe p q := (List.sorted_cons.mp h1).1 q hq1
          have hle2 : pairLe q p := (List.sorted_cons.mp h2).1 p hp2
          have hkey : p.1 = q.1 := lleb_antisymm p.1 q.1 hle1 hle2
          rw [List.map_cons, List.nodup_cons] at hnd
          exact hnd.1 (hkey ▸ List.mem_map_of_mem Prod.fst hq1)

theorem finalize_congr (m1 m2 : Registry)
    (hget : ∀ name, regGet m1 name = regGet m2 name)
    (h1 : (regKeys m1).Nodup) (h2 : (regKeys m2).Nodup) :
    finalize m1 = finalize m2 := by
  have hmem : ∀ p : List Nat × Aggregation, p ∈ m1 ↔ p ∈ m2 := by
    intro p
    rw [mem_iff_regGet m1 h1 p, mem_iff_regGet m2 h2 p, hget p.1]
  have hperm : List.Perm m1 m2 :=
    (List.perm_ext_iff_of_nodup (List.Nodup.of_map _ h1) (List.Nodup.of_map _ h2)).mpr hmem
  have hsorteq : sortPairs m1 = sortPairs m2 := by
    apply sorted_unique
    · exact List.Perm.trans (List.perm_insertionSort pairLe m1)
        (List.Perm.trans hperm (List.perm_insertionSort pairLe m2).symm)
    · exact List.sorted_insertionSort pairLe m1
    · exact List.sorted_insertionSort pairLe m2
    · have hpm : List.Perm (List.map Prod.fst (sortPairs m1)) (List.map Prod.fst m1) :=
        List.Perm.map Prod.fst (List.perm_insertionSort pairLe m1)
      exact (List.Perm.nodup_iff hpm).mpr h1
  rw [finalize, finalize, hsorteq]

theorem flatten_replicate_nil (n : Nat) :
    (List.replicate n ([] : List (List Nat))).flatten = [] := by
  induction n with
  | zero => rfl
  | succ m ih => rw [List.replicate_succ, List.flatten_cons, List.nil_append, ih]

theorem valsOf_perm (l1 l2 : List (List Nat)) (name : List Nat)
    (h : List.Perm l1 l2) : List.Perm (valsOf l1 name) (valsOf l2 name) := by
  unfold valsOf
  exact List.Perm.filterMap _ h

theorem regsOf_parses (Ls : List (List (List Nat))) (regs : List Registry)
    (h : RegsOf Ls regs) : ∀ l ∈ Ls.flatten, parse_line l ≠ none := by
  induction h with
  | nil => intro l hl; simp at hl
  | cons hrel hf ih =>
      intro l hl
      rw [List.flatten_cons] at hl
      rcases List.mem_append.mp hl with hc | hc
      · exact processLines_parses _ _ _ hrel l hc
      · exact ih l hc

theorem mapChunks_regsOf (chunks : List (List Nat)) :
    ∀ regs, mapChunks chunks = some regs → RegsOf (chunks.map splitNl) regs := by
  induction chunks with
  | nil =>
      intro regs h
      rw [mapChunks] at h
      injection h with h
      subst h
      exact List.Forall₂.nil
  | cons c cs ih =>
      intro regs h
      rw [mapChunks] at h
      rcases h1 : processChunk [] c with _ | r
      · rw [h1] at h; exact Option.noConfusion h
      · rw [h1] at h
        rcases h2 : mapChunks cs with _ | rs
        · rw [h2] at h; exact Option.noConfusion h
        · rw [h2] at h
          injection h with h
          subst h
          exact List.Forall₂.cons h1 (ih rs h2)

theorem mapChunks_total (chunks : List (List Nat)) :
    (∀ l ∈ (chunks.map splitNl).flatten, parse_line l ≠ none) →
      ∃ regs, mapChunks chunks = some regs ∧ regs.length = chunks.length := by
  induction chunks with
  | nil => intro _; exact ⟨[], rfl, rfl⟩
  | cons c cs ih =>
      intro hall
      have hall1 : ∀ l ∈ splitNl c, parse_line l ≠ none := by
        intro l hl
        apply hall l
        rw [List.map_cons, List.flatten_cons]
        exact List.mem_append.mpr (Or.inl hl)
      have hall2 : ∀ l ∈ (cs.map splitNl).flatten, parse_line l ≠ none := by
        intro l hl
        apply hall l
        rw [List.map_cons, List.flatten_cons]
        exact List.mem_append.mpr (Or.inr hl)
      obtain ⟨r, hr⟩ := processLines_total (splitNl c) [] hall1
      obtain ⟨rs, hrs, hlen⟩ := ih hall2
      refine ⟨r :: rs, ?_, by simp [hlen]⟩
      rw [mapChunks, show processChunk [] c = processLines [] (splitNl c) from rfl, hr, hrs]

theorem merged_char (out : List Registry) (Ls : List (List (List Nat)))
    (hregs : RegsOf Ls out) (merged : Registry) (hm : reduceRegs out = some merged) :
    (∀ name, regGet merged name = combineO none (valsOf Ls.flatten name)) ∧
      (regKeys merged).Nodup := by
  rcases out with _ | ⟨r, rs⟩
  · rw [reduceRegs] at hm
    exact Option.noConfusion hm
  · cases hregs with
    | cons hrel hf =>
      rename_i L Ls'
      rw [reduceRegs] at hm
      injection hm with hm
      subst hm
      have hchar : ∀ name, regGet r name = combineO none (valsOf L name) := by
        intro name
        rw [processLines_get L [] r hrel name]
        rfl
      obtain ⟨hget, hnd⟩ := foldl_regMerge_char rs Ls' r L hf hchar
        (processLines_nodup L [] r hrel (by simp [regKeys]))
      refine ⟨fun name => ?_, hnd⟩
      rw [hget name, List.flatten_cons]

/-- C1 (amended): for every input file ending in a newline on which the
streaming pipeline completes and produces a report, that report is
byte-identical to the naive single-threaded sequential scan's report, and
the memory-mapped parallel scan (modelled from the spec, over any
newline-aligned chunking of the trimmed file) produces the same report as
well.  (Without a trailing newline the pipelines disagree: the streaming
loop drops the final partial record — see the counterexample.) -/
theorem stream_mmap_match_sequential (file rep : List Nat)
    (hlast : file.getLast? = some 10)
    (h : streamPipeline BUFFER_SIZE file = some rep) :
    seqPipeline file = some rep ∧
      (∀ chunks, chunks ≠ [] → joinNl chunks = file.dropLast →
        mmapPipeline chunks = some rep) := by
  have hcore : ∃ (out : List Registry) (Ls : List (List (List Nat))) (merged : Registry),
      RegsOf Ls out ∧
      List.Perm Ls.flatten (splitNl file.dropLast) ∧
      reduceRegs out = some merged ∧ finalize merged = some rep := by
    by_cases hB : file.length ≤ BUFFER_SIZE
    · have hm : memrchr 10 file = some (file.length - 1) := memrchr_getLast file 10 hlast
      rw [streamPipeline_onebuf BUFFER_SIZE file (file.length - 1) hB hm] at h
      rw [← List.dropLast_eq_take] at h
      rcases hc : chunk_at_newlines file.dropLast with _ | chunks
      · rw [hc] at h; exact Option.noConfusion h
      rw [hc] at h
      simp only [] at h
      rcases hr : processRound (List.replicate PARALLELISM []) chunks with _ | out
      · rw [hr] at h; exact Option.noConfusion h
      rw [hr] at h
      simp only [] at h
      rcases hred : reduceRegs out with _ | merged
      · rw [hred] at h; exact Option.noConfusion h
      rw [hred] at h
      simp only [] at h
      have hcj : chunks.length = PARALLELISM ∧ file.dropLast.drop 0 = joinNl chunks := by
        rw [chunk_at_newlines] at hc
        exact chunkGo_joinNl _ _ PARALLELISM 0 chunks (by norm_num [PARALLELISM]) hc
      obtain ⟨hclen, hjoin⟩ := hcj
      rw [List.drop_zero] at hjoin
      have hchne : chunks ≠ [] := by
        intro h0
        rw [h0] at hclen
        simp [PARALLELISM] at hclen
      have hround := processRound_regsOf _ chunks out _
        (regsOf_replicate_nil PARALLELISM) hr
      refine ⟨out, _, merged, hround, ?_, hred, h⟩
      refine List.Perm.trans (flatten_zipWith_perm _ chunks ?_) ?_
      · rw [List.length_replicate, hclen]
      · rw [flatten_replicate_nil, List.nil_append, ← splitNl_joinNl chunks hchne, ← hjoin]
    · push_neg at hB
      rw [streamPipeline] at h
      have htb : (file.take BUFFER_SIZE).length = BUFFER_SIZE := by
        rw [List.length_take]
        omega
      have hpad : List.replicate (BUFFER_SIZE - (file.take BUFFER_SIZE).length) 0 =
          ([] : List Nat) := by
        rw [htb, Nat.sub_self, List.replicate_zero]
      rw [hpad, List.append_nil] at h
      rcases hs : streamLoop (file.length + 1) (file.drop BUFFER_SIZE)
          (file.take BUFFER_SIZE) BUFFER_SIZE (List.replicate PARALLELISM []) with _ | out
      · rw [hs] at h; exact Option.noConfusion h
      rw [hs] at h
      simp only [] at h
      rcases hred : reduceRegs out with _ | merged
      · rw [hred] at h; exact Option.noConfusion h
      rw [hred] at h
      simp only [] at h
      have hlastSide : (file.take BUFFER_SIZE ++ file.drop BUFFER_SIZE).getLast? =
          some 10 := by
        rw [List.take_append_drop]
        exact hlast
      have hcapSide : file.drop BUFFER_SIZE ≠ [] →
          (file.take BUFFER_SIZE).length = BUFFER_SIZE := fun _ => htb
      obtain ⟨Ls, hregs, hperm⟩ := streamLoop_lines (file.length + 1)
        (file.drop BUFFER_SIZE) (file.take BUFFER_SIZE) BUFFER_SIZE
        (List.replicate PARALLELISM []) out (List.replicate PARALLELISM []) hs
        (regsOf_replicate_nil PARALLELISM) hlastSide hcapSide
      refine ⟨out, Ls, merged, hregs, ?_, hred, h⟩
      rw [List.take_append_drop, flatten_replicate_nil, List.nil_append] at hperm
      exact hperm
  obtain ⟨out, Ls, merged, hregs, hperm, hred, hfin⟩ := hcore
  obtain ⟨hgetM, hndM⟩ := merged_char out Ls hregs merged hred
  have hparseAll : ∀ l ∈ splitNl file.dropLast, parse_line l ≠ none := by
    intro l hl
    exact regsOf_parses Ls out hregs l (hperm.mem_iff.mpr hl)
  obtain ⟨S, hS⟩ := processLines_total (splitNl file.dropLast) [] hparseAll
  have hfileRecords : fileRecords file = splitNl file.dropLast := by
    rw [fileRecords, if_pos hlast]
  have hgetS : ∀ name, regGet S name =
      combineO none (valsOf (splitNl file.dropLast) name) := by
    intro name
    rw [processLines_get _ _ _ hS name]
    rfl
  have hndS : (regKeys S).Nodup := processLines_nodup _ _ _ hS (by simp [regKeys])
  have hMS : ∀ name, regGet merged name = regGet S name := by
    intro name
    rw [hgetM name, hgetS name]
    exact combineO_none_perm _ _ (valsOf_perm _ _ name hperm)
  have hfinMS : finalize merged = finalize S := finalize_congr merged S hMS hndM hndS
  constructor
  · rw [seqPipeline, hfileRecords, hS]
    simp only []
    rw [← hfinMS]
    exact hfin
  · intro chunks hchne hjoin
    have hflatC : (chunks.map splitNl).flatten = splitNl file.dropLast := by
      rw [← splitNl_joinNl chunks hchne, hjoin]
    have hparseC : ∀ l ∈ (chunks.map splitNl).flatten, parse_line l ≠ none := by
      intro l hl
      apply hparseAll
      rw [← hflatC]
      exact hl
    obtain ⟨cregs, hcr, hclen2⟩ := mapChunks_total chunks hparseC
    have hcrne : cregs ≠ [] := by
      intro h0
      rw [h0] at hclen2
      rcases chunks with _ | ⟨c, cs⟩
      · exact hchne rfl
      · simp at hclen2
    rcases hcregs : cregs with _ | ⟨cr, crs⟩
    · exact absurd hcregs hcrne
    have hredC : reduceRegs cregs = some (crs.foldl regMerge cr) := by
      rw [hcregs, reduceRegs]
    obtain ⟨hgetC, hndC⟩ := merged_char cregs _
      (mapChunks_regsOf chunks cregs hcr) (crs.foldl regMerge cr) hredC
    have hMC : ∀ name, regGet (crs.foldl regMerge cr) name = regGet S name := by
      intro name
      rw [hgetC name, hgetS name, hflatC]
    have hfinC : finalize (crs.foldl regMerge cr) = finalize S :=
      finalize_congr _ S hMC hndC hndS
    rw [mmapPipeline, hcr, hcregs]
    simp only []
    rw [show reduceRegs (cr :: crs) = some (crs.foldl regMerge cr) from rfl]
    simp only []
    rw [hfinC, ← hfinMS]
    exact hfin

theorem valsOf_replicate (n : Nat) (l : List Nat) (name : List Nat) (nv : List Nat × Int)
    (hp : parse_line l = some nv) (hn : nv.1 = name) :
    valsOf (List.replicate n l) name = List.replicate n nv.2 := by
  induction n with
  | zero => rfl
  | succ m ih =>
      rw [List.replicate_succ, valsOf_cons_hit l _ name nv hp hn, ih,
        List.replicate_succ]

/-- Witness for `stream_mmap_match_sequential`: on a concrete 16-record
file ending in a newline, the streaming pipeline produces a report, and
both the sequential baseline and the (spec-modelled) memory-mapped scan
over the trivial one-chunk decomposition produce the identical bytes. -/
theorem stream_mmap_match_sequential_witness :
    exampleFile.getLast? = some 10 ∧
      (streamPipeline BUFFER_SIZE exampleFile).isSome = true ∧
      seqPipeline exampleFile = streamPipeline BUFFER_SIZE exampleFile ∧
      mmapPipeline [exampleFile.dropLast] = streamPipeline BUFFER_SIZE exampleFile := by
  have hsome : (streamPipeline BUFFER_SIZE exampleFile).isSome = true := by
    rw [streamPipeline_onebuf BUFFER_SIZE exampleFile 95 (by decide) (by decide)]
    decide
  obtain ⟨rep, hrep⟩ := Option.isSome_iff_exists.mp hsome
  obtain ⟨hseq, hmmap⟩ := stream_mmap_match_sequential exampleFile rep (by decide) hrep
  refine ⟨by decide, hsome, ?_, ?_⟩
  · rw [hrep, hseq]
  · rw [hrep]
    exact hmmap [exampleFile.dropLast] (by simp) rfl

/-- C1 counterexample: on the two-record file `a;1.0\nb;2.0` (11 bytes, no
trailing newline) the streaming pipeline aborts (the partition chunker
panics on the newline-free region before the last newline) while the
naive sequential scan produces a report, refuting byte-identical reports
"for every fixed input file". -/
theorem stream_seq_mismatch_no_trailing_newline :
    streamPipeline BUFFER_SIZE [97, 59, 49, 46, 48, 10, 98, 59, 50, 46, 48] = none ∧
      seqPipeline [97, 59, 49, 46, 48, 10, 98, 59, 50, 46, 48] ≠ none := by
  rw [streamPipeline_onebuf BUFFER_SIZE [97, 59, 49, 46, 48, 10, 98, 59, 50, 46, 48] 5
    (by decide) (by decide)]
  exact ⟨by decide, by decide⟩

set_option maxRecDepth 10000 in
/-- C6 (code bug): a final record with no trailing newline IS lost by the
streaming loop.  On `fileNoNl` (16 newline-terminated records plus a
final record `z;9.9` with no trailing newline) both pipelines produce
reports, but they differ: the streaming report equals the report of the
16-record file without `z;9.9` at all — the final record contributes
zero times, not exactly once, refuting the claim for the streaming
ingestion loop. -/
theorem final_record_without_newline_dropped :
    (seqPipeline fileNoNl).isSome = true ∧
      (streamPipeline BUFFER_SIZE fileNoNl).isSome = true ∧
      streamPipeline BUFFER_SIZE fileNoNl ≠ seqPipeline fileNoNl ∧
      streamPipeline BUFFER_SIZE fileNoNl = seqPipeline exampleFile := by
  rw [streamPipeline_onebuf BUFFER_SIZE fileNoNl 95 (by decide) (by decide)]
  exact ⟨by decide, by decide, by decide, by decide⟩

/-- C7 (code bug): a file with exactly one record does NOT produce a
one-entry report — the streaming pipeline aborts.  For `a;1.0\n` the last
newline is at index 5, so the chunker runs on the newline-free region
`a;1.0` and panics (`expect("There should always be a newline")`: the
first prefix window, of length `5 / 8 = 0`, contains no newline), while
the naive sequential scan produces the expected one-entry report
`{a=1.0/1.0/1.0}` with min = mean = max. -/
theorem single_record_file_aborts :
    streamPipeline BUFFER_SIZE [97, 59, 49, 46, 48, 10] = none ∧
      seqPipeline [97, 59, 49, 46, 48, 10] =
        some [123, 97, 61, 49, 46, 48, 47, 49, 46, 48, 47, 49, 46, 48, 125] := by
  rw [streamPipeline_onebuf BUFFER_SIZE [97, 59, 49, 46, 48, 10] 5 (by decide) (by decide)]
  exact ⟨by decide, by decide⟩

/-- C10 counterexample: after exactly 2^32 records of one group the u32
count accumulator wraps to 0 — the stored record has `count = 0`, and the
i32 divisor `self.count as i32` inside `mean` is 0 (a division by zero),
refuting "count >= 1 at all times". -/
theorem count_wraps_to_zero :
    ∃ reg ag,
      processLines [] (List.replicate 4294967296 [97, 59, 49, 46, 48]) = some reg ∧
        regGet reg [97] = some ag ∧ ag.count = 0 ∧ i32OfU32 ag.count = 0 := by
  have hp : parse_line [97, 59, 49, 46, 48] = some ([97], 10) := by decide
  have hall : ∀ l ∈ List.replicate 4294967296 [97, 59, 49, 46, 48],
      parse_line l ≠ none := by
    intro l hl h0
    rw [List.eq_of_mem_replicate hl, hp] at h0
    exact Option.noConfusion h0
  obtain ⟨reg, hreg⟩ := processLines_total _ [] hall
  have hget := processLines_get _ [] reg hreg [97]
  rw [valsOf_replicate 4294967296 [97, 59, 49, 46, 48] [97] ([97], 10) hp rfl] at hget
  rw [show regGet ([] : Registry) [97] = none from rfl] at hget
  rw [show (4294967296 : Nat) = 4294967295 + 1 from rfl] at hget
  rw [List.replicate_succ, combineO_none_cons] at hget
  have hget2 : regGet reg [97] =
      some ((List.replicate 4294967295 (10 : Int)).foldl Aggregation.update
        (Aggregation.new.update 10)) := hget
  have hcount : ((List.replicate 4294967295 (10 : Int)).foldl Aggregation.update
      (Aggregation.new.update 10)).count = 0 := by
    rw [count_foldl_update _ _ (by decide), List.length_replicate]
    decide
  exact ⟨reg, _, hreg, hget2, hcount, by rw [hcount]; decide⟩

/-- C10 (amended): every record stored in a registry built from fewer
than 2^32 lines has `count >= 1`, and the i32 reinterpretation of the
count used as `mean`'s divisor is nonzero — so no report entry divides by
zero below that bound; at exactly 2^32 updates of one group the u32 count
wraps to 0 (see the counterexample). -/
theorem registry_count_positive (lines : List (List Nat)) (reg : Registry)
    (h : processLines [] lines = some reg) (hlen : lines.length < 4294967296) :
    ∀ p ∈ reg, 1 ≤ p.2.count ∧ i32OfU32 p.2.count ≠ 0 := by
  intro p hp
  have hnd : (regKeys reg).Nodup := processLines_nodup lines [] reg h (by simp [regKeys])
  have hget : regGet reg p.1 = some p.2 := (mem_iff_regGet reg hnd p).mp hp
  rw [processLines_get lines [] reg h p.1,
    show regGet ([] : Registry) p.1 = none from rfl] at hget
  have hvlen : (valsOf lines p.1).length ≤ lines.length :=
    List.length_filterMap_le _ _
  rcases hv : valsOf lines p.1 with _ | ⟨v, vs⟩
  · rw [hv] at hget
    exact Option.noConfusion hget
  · rw [hv] at hget
    rw [hv] at hvlen
    have hget2 : (v :: vs).foldl Aggregation.update Aggregation.new = p.2 := by
      have h2 : some ((v :: vs).foldl Aggregation.update Aggregation.new) =
        some p.2 := hget
      injection h2
    have hc := count_foldl_update (v :: vs) Aggregation.new (by decide)
    rw [hget2] at hc
    rw [show Aggregation.new.count = 0 from rfl] at hc
    simp only [List.length_cons] at hc hvlen
    have h1 : 1 ≤ p.2.count := by omega
    refine ⟨h1, ?_⟩
    have h2 : p.2.count < 4294967296 := by omega
    unfold i32OfU32
    split
    · omega
    · omega

/-- Witness for `registry_count_positive` on a one-line input. -/
theorem registry_count_positive_witness :
    processLines [] [[97, 59, 49, 46, 48]] =
        some [([97], Aggregation.new.update 10)] ∧
      1 ≤ (Aggregation.new.update 10).count ∧
      i32OfU32 (Aggregation.new.update 10).count ≠ 0 := by
  have h : processLines [] [[97, 59, 49, 46, 48]] =
      some [([97], Aggregation.new.update 10)] := by decide
  exact ⟨h, registry_count_positive [[97, 59, 49, 46, 48]] _ h (by decide)
    ([97], Aggregation.new.update 10) (by decide)⟩
